import Mathlib

/-!
Shallow embedding of `openedx/core/djangoapps/catalog/utils.py`.

Programs, program types and instructors are Python dicts in the source; here
they are typed records (instructors stay association lists because they are
accessed only through `.get`).  The Django cache, the heap of program dict
objects and the log of calls to the external fetch utility
(`get_edx_api_data`, an external collaborator whose internals are out of
scope) form an explicit state `St` threaded through every function.  Python
object identity matters for the deep-copy claims, so program dicts live in a
heap addressed by `Nat` and field assignment is a heap update; a program
record contains no further references, hence `copy.deepcopy` is a fresh
allocation of the same record value.  External collaborators (the catalog
service, the user table, the modulestore) are oracles in `Env`.
-/

namespace Catalog

/-- Python dict with string-like keys, as an association list in insertion
order.  `pyDictInsert` is `d[k] = v`: it replaces the value of an existing
key in place, otherwise appends. -/
def pyDictInsert {K V : Type} [DecidableEq K] : List (K × V) → K → V → List (K × V)
  | [], k, v => [(k, v)]
  | p :: rest, k, v => if p.1 = k then (k, v) :: rest else p :: pyDictInsert rest k v

/-- Python `d.get(k)`: the value stored under `k`, if any. -/
def pyDictGet? {K V : Type} [DecidableEq K] : List (K × V) → K → Option V
  | [], _ => none
  | p :: rest, k => if p.1 = k then some p.2 else pyDictGet? rest k

/-- An instructor profile is a plain dict (name, organization, ...). -/
abbrev Instructor := List (String × String)

/-- Python `instructor.get('name')`: the dedup key, `none` when absent. -/
def instructorName (i : Instructor) : Option String :=
  pyDictGet? i "name"

/-- A program type record from the catalog service: a name plus descriptive
metadata. -/
structure ProgramType where
  name : String
  description : String
deriving DecidableEq, Repr

/-- The value stored under the `'type'` key of a program dict: the type name
string as fetched, or the full program type object after enrichment. -/
inductive TypeField where
  | name : String → TypeField
  | obj : ProgramType → TypeField
deriving DecidableEq, Repr

/-- A course run entry of a program's course: carries the course run key. -/
structure CourseRun where
  key : String
deriving DecidableEq, Repr

/-- A course entry of a program: its list of course runs. -/
structure Course where
  course_runs : List CourseRun
deriving DecidableEq, Repr

/-- A program dict.  `instructors := none` models the absence of the
`'instructors'` key (it is only ever added by the enrichment composer). -/
structure Program where
  uuid : String
  marketing_slug : String
  type : TypeField
  courses : List Course
  instructors : Option (List Instructor)
deriving DecidableEq, Repr

instance : Inhabited Program :=
  ⟨⟨"", "", TypeField.name "", [], none⟩⟩

/-- A course key; `CourseKey.from_string` wraps the raw string. -/
structure CourseKey where
  key_string : String
deriving DecidableEq, Repr

def CourseKey.from_string (s : String) : CourseKey :=
  ⟨s⟩

/-- The `instructor_info` attribute of a course descriptor: a dict that may
carry an `'instructors'` list. -/
structure InstructorInfo where
  instructors : Option (List Instructor)
deriving DecidableEq, Repr

/-- A course descriptor from the modulestore; the `instructor_info`
attribute may be absent (`getattr` default). -/
structure CourseDescriptor where
  instructor_info : Option InstructorInfo
deriving DecidableEq, Repr

/-- The current catalog integration configuration. -/
structure CatalogIntegration where
  enabled : Bool
  service_username : String
  CACHE_KEY : String
  is_cache_enabled : Bool
  internal_api_url : String
deriving DecidableEq, Repr

/-- The API client returned by `EdxRestApiClient(...)`; the signed JWT is
token-signing internals of an external collaborator and is not modelled. -/
structure ApiClient where
  base_url : String
deriving DecidableEq, Repr

/-- Value of a querystring entry (Python dict values `1` or a string). -/
inductive QVal where
  | int : Int → QVal
  | str : String → QVal
deriving DecidableEq, Repr

/-- One invocation of the external fetch utility `get_edx_api_data`,
recording the arguments the catalog helpers pass to it. -/
structure FetchCall where
  resource : String
  resource_id : Option String
  cache_key : Option String
  api : ApiClient
  querystring : Option (List (String × QVal))
deriving DecidableEq, Repr

/-- Addresses of program dict objects in the heap. -/
abbrev Addr := Nat

/-- The mutable state: the heap of program dict objects, the Django cache
entries written by the instructor aggregator, and the log of fetch-utility
invocations. -/
structure St where
  heap : List Program
  cache : List (String × List Instructor)
  calls : List FetchCall
deriving DecidableEq, Repr

/-- External collaborators: the configuration singleton, the user table
lookup, the fetch utility's result for each call shape, and the
modulestore course lookup. -/
structure Env where
  integration : CatalogIntegration
  userExists : String → Bool
  fetchList : FetchCall → List Program
  fetchOne : FetchCall → Program
  fetchTypes : FetchCall → List ProgramType
  getCourse : CourseKey → Option CourseDescriptor

/-- Read the program dict at an address (addresses created by the functions
below are always in range). -/
def heapGet (st : St) (a : Addr) : Program :=
  st.heap.getD a default

/-- Overwrite the program dict at an address (a Python field assignment on
the object at `a`). -/
def heapSet (st : St) (a : Addr) (p : Program) : St :=
  { st with heap := st.heap.set a p }

/-- Allocate a fresh program dict object, returning its address. -/
def alloc (st : St) (p : Program) : Addr × St :=
  (st.heap.length, { st with heap := st.heap ++ [p] })

/-- Allocate each fetched program dict in order. -/
def allocList : St → List Program → List Addr × St
  | st, [] => ([], st)
  | st, p :: rest =>
    let (a, st1) := alloc st p
    let (as1, st2) := allocList st1 rest
    (a :: as1, st2)

/-- Python `copy.deepcopy` on a program dict: program records hold no
further references, so a deep copy is a fresh allocation of the same
value. -/
def deepcopy (st : St) (a : Addr) : Addr × St :=
  alloc st (heapGet st a)

/-- Errors this layer can raise: `StopIteration` from `next` without a
default, `KeyError` from a dict subscript, `TypeError` from subscripting a
non-dict. -/
inductive PyErr where
  | stopIteration : PyErr
  | keyError : String → PyErr
  | typeError : PyErr
deriving DecidableEq, Repr

/-- Result of `get_programs`: a list of program objects, or a single
program object when a uuid was requested (pass-through from the fetch
utility). -/
inductive PyProgData where
  | plist : List Addr → PyProgData
  | pdict : Addr → PyProgData
deriving DecidableEq, Repr

/-- `create_catalog_api_client`: an API client against the configured base
URL (JWT creation is external token signing, out of scope). -/
def create_catalog_api_client (ci : CatalogIntegration) : ApiClient :=
  ⟨ci.internal_api_url⟩

/-- Python truthiness of an optional string argument (`if uuid:`,
`if type:`, `'.' + type if type else ''`): `None` and the empty string are
both falsy. -/
def py_str_truthy : Option String → Bool
  | none => false
  | some s => !s.isEmpty

/-- Cache key built by `get_programs`: `<prefix>.programs`, suffixed with
`.<type>` only when the type argument is truthy (a non-empty string). -/
def programs_cache_key (ci : CatalogIntegration) (type_ : Option String) : String :=
  match type_ with
  | some t =>
    if py_str_truthy (some t)
    then ci.CACHE_KEY ++ ".programs." ++ t
    else ci.CACHE_KEY ++ ".programs"
  | none => ci.CACHE_KEY ++ ".programs"

/-- Querystring built by `get_programs`: always `marketable=1` and
`exclude_utm=1`; `use_full_course_serializer=1` when the uuid argument is
truthy; `type=<type>` when the type argument is truthy. -/
def programs_querystring (uuid type_ : Option String) : List (String × QVal) :=
  [("marketable", QVal.int 1), ("exclude_utm", QVal.int 1)]
    ++ (if py_str_truthy uuid then [("use_full_course_serializer", QVal.int 1)] else [])
    ++ (match type_ with
        | some t => if py_str_truthy (some t) then [("type", QVal.str t)] else []
        | none => [])

/-- The argument record `get_programs` hands to the fetch utility. -/
def programs_call (env : Env) (uuid type_ : Option String) : FetchCall :=
  { resource := "programs"
    resource_id := uuid
    cache_key :=
      if env.integration.is_cache_enabled
      then some (programs_cache_key env.integration type_)
      else none
    api := create_catalog_api_client env.integration
    querystring := some (programs_querystring uuid type_) }

/-- The argument record `get_program_types` hands to the fetch utility. -/
def program_types_call (env : Env) : FetchCall :=
  { resource := "program_types"
    resource_id := none
    cache_key :=
      if env.integration.is_cache_enabled
      then some (env.integration.CACHE_KEY ++ ".program_types")
      else none
    api := create_catalog_api_client env.integration
    querystring := none }

/-- `get_programs(uuid=None, type=None)`: return `[]` when the integration
is disabled or the service user is missing; otherwise log one fetch-utility
call (with the cache key, unless caching is disabled, and the querystring)
and allocate the fetched data: one dict when a uuid was given, else the
list. -/
def get_programs (env : Env) (uuid type_ : Option String) (st : St) : PyProgData × St :=
  let ci := env.integration
  if ci.enabled then
    if env.userExists ci.service_username then
      let call := programs_call env uuid type_
      let st1 : St := { st with calls := st.calls ++ [call] }
      match uuid with
      | some _ =>
        let (a, st2) := alloc st1 (env.fetchOne call)
        (PyProgData.pdict a, st2)
      | none =>
        let (as1, st2) := allocList st1 (env.fetchList call)
        (PyProgData.plist as1, st2)
    else (PyProgData.plist [], st)
  else (PyProgData.plist [], st)

/-- `get_program_types()`: same disabled / missing-user short-circuit;
cache key `<prefix>.program_types`; no querystring, no resource id. -/
def get_program_types (env : Env) (st : St) : List ProgramType × St :=
  let ci := env.integration
  if ci.enabled then
    if env.userExists ci.service_username then
      let call := program_types_call env
      (env.fetchTypes call, { st with calls := st.calls ++ [call] })
    else ([], st)
  else ([], st)

/-- Python `program_type['name'] == name` where `name` is whatever the
caller passed (a string compares by string equality; a dict compared to a
string is `False`). -/
def py_eq_str_tf (s : String) : TypeField → Bool
  | TypeField.name n => s = n
  | TypeField.obj _ => false

/-- `get_program_type(name)`: `next(pt for pt in get_program_types() if
pt['name'] == name)` — the first matching entry, or a `StopIteration`
error when none matches. -/
def get_program_type (env : Env) (name : TypeField) (st : St) : Except PyErr ProgramType × St :=
  let (types, st1) := get_program_types env st
  match types.find? (fun pt => py_eq_str_tf pt.name name) with
  | some pt => (Except.ok pt, st1)
  | none => (Except.error PyErr.stopIteration, st1)

/-- `get_program_course_run_keys(program)`: the set of course keys of all
course runs of all courses of the program.  The Python `set` is unordered;
it is modelled as a list deduplicated in insertion order, so one iteration
order of the set is fixed. -/
def get_program_course_run_keys (program : Program) : List CourseKey :=
  program.courses.foldl
    (fun keys course =>
      course.course_runs.foldl
        (fun keys course_run =>
          let k := CourseKey.from_string course_run.key
          if keys.contains k then keys else keys ++ [k])
        keys)
    []

/-- The instructor list a found course descriptor contributes:
`getattr(course_descriptor, 'instructor_info', {}).get('instructors', [])`. -/
def course_effective_instructors (cd : CourseDescriptor) : List Instructor :=
  match cd.instructor_info with
  | some info => info.instructors.getD []
  | none => []

/-- The dict built by the loop of `_get_program_instructors`: for each
course run key whose modulestore lookup succeeds, merge the descriptor's
instructors into the dict keyed by `instructor.get('name')` (the
comprehension-plus-`update` composite assigns the entries in list order,
later same-named entries overwriting earlier ones). -/
def program_instructors_dict (env : Env) (program : Program) :
    List (Option String × Instructor) :=
  (get_program_course_run_keys program).foldl
    (fun d course_run_key =>
      match env.getCourse course_run_key with
      | some course_descriptor =>
        (course_effective_instructors course_descriptor).foldl
          (fun d instructor => pyDictInsert d (instructorName instructor) instructor)
          d
      | none => d)
    []

/-- Python truthiness of the cached value in `_get_program_instructors`:
`not program_instructors_list` holds for a cache miss and for a cached
empty list. -/
def py_falsy (v : Option (List Instructor)) : Bool :=
  match v with
  | none => true
  | some l => l.isEmpty

/-- `_get_program_instructors(program)`: consult the Django cache under
`program.instructors.<uuid>`; when the cached value is falsy, rebuild the
instructor dict from the modulestore, store its value list in the cache and
return it; otherwise return the cached list unchanged. -/
def get_program_instructors (env : Env) (program : Program) (st : St) :
    List Instructor × St :=
  let cache_key := "program.instructors." ++ program.uuid
  let cached := pyDictGet? st.cache cache_key
  if py_falsy cached then
    let program_instructors_list := (program_instructors_dict env program).map (fun p => p.2)
    (program_instructors_list,
      { st with cache := pyDictInsert st.cache cache_key program_instructors_list })
  else
    (cached.getD [], st)

/-- Python `not include_types or program['type'] in include_types`.
`include_types` is falsy when absent or empty; list membership uses `==`,
under which a type object (a dict) never equals a string element. -/
def program_selected (tf : TypeField) (include_types : Option (List String)) : Bool :=
  match include_types with
  | none => true
  | some [] => true
  | some l =>
    match tf with
    | TypeField.name s => l.contains s
    | TypeField.obj _ => false

/-- The name-to-type dict `{pt['name']: pt for pt in get_program_types()}`
(a dict comprehension: later duplicate names overwrite earlier ones). -/
def program_types_by_name (types : List ProgramType) : List (String × ProgramType) :=
  types.foldl (fun d pt => pyDictInsert d pt.name pt) []

/-- The subscript `program_types[program['type']]`: a `KeyError` when the
name string is not a key, a `TypeError` when the field already holds a type
object (dicts are unhashable). -/
def program_types_getitem (d : List (String × ProgramType)) :
    TypeField → Except PyErr ProgramType
  | TypeField.name s =>
    match pyDictGet? d s with
    | some pt => Except.ok pt
    | none => Except.error (PyErr.keyError s)
  | TypeField.obj _ => Except.error PyErr.typeError

/-- The enrichment loop of `get_programs_with_type`: for each program
passing the filter, deep-copy it, replace the copy's `'type'` field via the
name-to-type dict (a failed subscript aborts the whole call) and collect
the copy. -/
def gpwt_loop (program_types : List (String × ProgramType))
    (include_types : Option (List String)) :
    List Addr → St → Except PyErr (List Addr) × St
  | [], st => (Except.ok [], st)
  | a :: rest, st =>
    let program := heapGet st a
    if program_selected program.type include_types then
      let (ca, st1) := deepcopy st a
      match program_types_getitem program_types program.type with
      | Except.error e => (Except.error e, st1)
      | Except.ok pt =>
        let st2 := heapSet st1 ca { heapGet st1 ca with type := TypeField.obj pt }
        match gpwt_loop program_types include_types rest st2 with
        | (Except.error e, st3) => (Except.error e, st3)
        | (Except.ok tail, st3) => (Except.ok (ca :: tail), st3)
    else
      gpwt_loop program_types include_types rest st

/-- `get_programs_with_type(include_types=None)`: fetch all programs; when
the list is non-empty, fetch the program types once, build the name-to-type
dict and run the enrichment loop; an empty fetch skips the type fetch and
yields `[]`. -/
def get_programs_with_type (env : Env) (include_types : Option (List String)) (st : St) :
    Except PyErr (List Addr) × St :=
  let (pd, st1) := get_programs env none none st
  match pd with
  | PyProgData.pdict _ =>
    -- Unreachable for uuid=None; iterating a dict would subscript strings.
    (Except.error PyErr.typeError, st1)
  | PyProgData.plist addrs =>
    match addrs with
    | [] => (Except.ok [], st1)
    | _ :: _ =>
      let (types, st2) := get_program_types env st1
      gpwt_loop (program_types_by_name types) include_types addrs st2

/-- `get_program_with_type_and_instructors(marketing_slug)`: find the first
program with the given slug in `get_programs()` (`None` when absent);
re-fetch that program by uuid, deep-copy the re-fetched dict, assign the
resolved program type (a `StopIteration` from the lookup aborts the call)
and the aggregated instructors onto the copy, and return the copy. -/
def get_program_with_type_and_instructors (env : Env) (marketing_slug : String) (st : St) :
    Except PyErr (Option Addr) × St :=
  let (pd, st1) := get_programs env none none st
  match pd with
  | PyProgData.pdict _ =>
    -- Unreachable for uuid=None; iterating a dict would subscript strings.
    (Except.error PyErr.typeError, st1)
  | PyProgData.plist addrs =>
    match addrs.find? (fun a => (heapGet st1 a).marketing_slug == marketing_slug) with
    | none => (Except.ok none, st1)
    | some a =>
      let (fpd, st2) := get_programs env (some (heapGet st1 a).uuid) none st1
      match fpd with
      | PyProgData.plist _ =>
        -- Unreachable here: the integration was enabled for the first call.
        (Except.error PyErr.typeError, st2)
      | PyProgData.pdict fa =>
        let (ca, st3) := deepcopy st2 fa
        let (tr, st4) := get_program_type env (heapGet st3 fa).type st3
        match tr with
        | Except.error e => (Except.error e, st4)
        | Except.ok pt =>
          let st5 := heapSet st4 ca { heapGet st4 ca with type := TypeField.obj pt }
          let (instructors, st6) := get_program_instructors env (heapGet st5 fa) st5
          let st7 := heapSet st6 ca { heapGet st6 ca with instructors := some instructors }
          (Except.ok (some ca), st7)

/-- The instructors contributed by the found course descriptors, flattened
in processing order (the order in which the loop of
`_get_program_instructors` walks the course run keys). -/
def instructor_stream (env : Env) (program : Program) : List Instructor :=
  ((get_program_course_run_keys program).filterMap env.getCourse).foldl
    (fun s cd => s ++ course_effective_instructors cd) []

/-! Concrete fixtures used to instantiate the theorems below on closed
inputs. -/

/-- An empty starting state. -/
def st0 : St := ⟨[], [], []⟩

/-- A configuration with the integration switched off. -/
def env_off : Env :=
  { integration := ⟨false, "svc", "pfx", true, "http://cat"⟩
    userExists := fun _ => true
    fetchList := fun _ => []
    fetchOne := fun _ => default
    fetchTypes := fun _ => []
    getCourse := fun _ => none }

/-- A program whose two courses share a course run and whose instructors
collide on the name `alice`. -/
def fix_p1 : Program :=
  ⟨"u1", "slug1", TypeField.name "T1",
    [⟨[⟨"c1"⟩, ⟨"c2"⟩]⟩, ⟨[⟨"c1"⟩]⟩], none⟩

/-- A second program of another type with no courses. -/
def fix_p2 : Program :=
  ⟨"u2", "slug2", TypeField.name "T2", [], none⟩

def fix_alice : Instructor := [("name", "alice"), ("organization", "A")]

def fix_bob : Instructor := [("name", "bob"), ("organization", "B")]

/-- A second profile for `alice`, contributed by a later course run. -/
def fix_alice2 : Instructor := [("name", "alice"), ("organization", "C")]

/-- An enabled configuration over two programs, two types and two courses
(the third course key is absent from the modulestore). -/
def env_on : Env :=
  { integration := ⟨true, "svc", "pfx", true, "http://cat"⟩
    userExists := fun u => u == "svc"
    fetchList := fun _ => [fix_p1, fix_p2]
    fetchOne := fun c => if c.resource_id == some "u1" then fix_p1 else fix_p2
    fetchTypes := fun _ => [⟨"T1", "d1"⟩, ⟨"T2", "d2"⟩]
    getCourse := fun k =>
      if k.key_string == "c1" then some ⟨some ⟨some [fix_alice, fix_bob]⟩⟩
      else if k.key_string == "c2" then some ⟨some ⟨some [fix_alice2]⟩⟩
      else none }

/-- Like `env_on` but the catalog knows no type named `T2`, so enriching
`fix_p2` must fail. -/
def env_untyped : Env :=
  { env_on with fetchTypes := fun _ => [⟨"T1", "d1"⟩] }

/-- A program referencing one found course and one course key the
modulestore does not know. -/
def fix_p3 : Program :=
  ⟨"u3", "slug3", TypeField.name "T1", [⟨[⟨"c1"⟩, ⟨"cX"⟩]⟩], none⟩

/-- The state after `env_on`'s initial program-list fetch from `st0`. -/
def fix_st1 : St := ⟨[fix_p1, fix_p2], [], [programs_call env_on none none]⟩

/-- The state after `env_on` additionally re-fetches `fix_p1` by uuid. -/
def fix_st2 : St :=
  ⟨[fix_p1, fix_p2, fix_p1], [],
    [programs_call env_on none none, programs_call env_on (some "u1") none]⟩

/-- The state after `env_on` fetches the program list and then the program
types from `st0`. -/
def fix_st_types : St :=
  ⟨[fix_p1, fix_p2], [], [programs_call env_on none none, program_types_call env_on]⟩

/-- The state after `env_untyped`'s initial program-list fetch from
`st0`. -/
def fix_st1u : St := ⟨[fix_p1, fix_p2], [], [programs_call env_untyped none none]⟩

/-- The state after `env_untyped` fetches programs and then program
types. -/
def fix_st_types_u : St :=
  ⟨[fix_p1, fix_p2], [],
    [programs_call env_untyped none none, program_types_call env_untyped]⟩

/-- A state whose instructor cache holds an empty (falsy) list for
`fix_p1`. -/
def st_cache_empty : St := ⟨[], [("program.instructors.u1", [])], []⟩

/-- A state whose instructor cache holds a non-empty list for `fix_p1`. -/
def st_cache_warm : St := ⟨[], [("program.instructors.u1", [fix_bob])], []⟩

/-! Generic lemmas about the Python dict model. -/

theorem pyDictGet?_insert_self {K V : Type} [DecidableEq K] (d : List (K × V)) (k : K) (v : V) :
    pyDictGet? (pyDictInsert d k v) k = some v := by
  induction d with
  | nil => simp [pyDictInsert, pyDictGet?]
  | cons p rest ih =>
    by_cases h : p.1 = k
    · simp [pyDictInsert, pyDictGet?, h]
    · simp [pyDictInsert, pyDictGet?, h, ih]

theorem pyDictInsert_cons_eq {K V : Type} [DecidableEq K] (q : K × V) (rest : List (K × V))
    (k : K) (v : V) (hq : q.1 = k) : pyDictInsert (q :: rest) k v = (k, v) :: rest := by
  simp [pyDictInsert, hq]

theorem pyDictInsert_cons_ne {K V : Type} [DecidableEq K] (q : K × V) (rest : List (K × V))
    (k : K) (v : V) (hq : ¬q.1 = k) :
    pyDictInsert (q :: rest) k v = q :: pyDictInsert rest k v := by
  simp [pyDictInsert, hq]

theorem pyDictGet?_insert_ne {K V : Type} [DecidableEq K] (d : List (K × V)) (k k' : K) (v : V)
    (h : k' ≠ k) : pyDictGet? (pyDictInsert d k v) k' = pyDictGet? d k' := by
  induction d with
  | nil => simp [pyDictInsert, pyDictGet?, Ne.symm h]
  | cons p rest ih =>
    by_cases hp : p.1 = k
    · rw [pyDictInsert_cons_eq p rest k v hp]
      simp [pyDictGet?, Ne.symm h, hp]
    · rw [pyDictInsert_cons_ne p rest k v hp]
      by_cases hp' : p.1 = k'
      · simp [pyDictGet?, hp']
      · simp [pyDictGet?, hp', ih]

theorem pyDictInsert_keys_mem {K V : Type} [DecidableEq K] (d : List (K × V)) (k k' : K) (v : V) :
    k' ∈ (pyDictInsert d k v).map Prod.fst ↔ k' ∈ d.map Prod.fst ∨ k' = k := by
  induction d with
  | nil => simp [pyDictInsert]
  | cons p rest ih =>
    by_cases hp : p.1 = k
    · rw [pyDictInsert_cons_eq p rest k v hp]
      simp only [List.map_cons, List.mem_cons, hp]
      tauto
    · rw [pyDictInsert_cons_ne p rest k v hp]
      simp only [List.map_cons, List.mem_cons, ih]
      tauto

theorem pyDictInsert_keys_nodup {K V : Type} [DecidableEq K] (d : List (K × V)) (k : K) (v : V)
    (h : (d.map Prod.fst).Nodup) : ((pyDictInsert d k v).map Prod.fst).Nodup := by
  induction d with
  | nil => simp [pyDictInsert]
  | cons p rest ih =>
    simp only [List.map_cons, List.nodup_cons] at h
    by_cases hp : p.1 = k
    · rw [pyDictInsert_cons_eq p rest k v hp]
      simp only [List.map_cons, List.nodup_cons]
      exact ⟨hp ▸ h.1, h.2⟩
    · rw [pyDictInsert_cons_ne p rest k v hp]
      simp only [List.map_cons, List.nodup_cons]
      refine ⟨?_, ih h.2⟩
      intro hmem
      rcases (pyDictInsert_keys_mem rest k p.1 v).1 hmem with hmem | hmem
      · exact h.1 hmem
      · exact hp hmem

theorem pyDictInsert_values {K V : Type} [DecidableEq K] (f : V → K) (d : List (K × V))
    (k : K) (v : V) (hv : f v = k) :
    (∀ p ∈ d, f p.2 = p.1) → ∀ p ∈ pyDictInsert d k v, f p.2 = p.1 := by
  induction d with
  | nil =>
    intro _ p hp
    simp [pyDictInsert] at hp
    subst hp
    exact hv
  | cons q rest ih =>
    intro hd p hp
    by_cases hq : q.1 = k
    · rw [pyDictInsert_cons_eq q rest k v hq] at hp
      rcases List.mem_cons.1 hp with rfl | hp
      · exact hv
      · exact hd p (List.mem_cons_of_mem q hp)
    · rw [pyDictInsert_cons_ne q rest k v hq] at hp
      rcases List.mem_cons.1 hp with rfl | hp
      · exact hd p (List.mem_cons_self p rest)
      · exact ih (fun r hr => hd r (List.mem_cons_of_mem q hr)) p hp

theorem pyDictGet?_mem {K V : Type} [DecidableEq K] (d : List (K × V)) (k : K) (v : V)
    (h : pyDictGet? d k = some v) : (k, v) ∈ d := by
  induction d with
  | nil => simp [pyDictGet?] at h
  | cons p rest ih =>
    by_cases hp : p.1 = k
    · simp only [pyDictGet?, if_pos hp] at h
      obtain ⟨k1, v1⟩ := p
      simp_all
    · simp only [pyDictGet?, if_neg hp] at h
      exact List.mem_cons_of_mem p (ih h)

theorem pyDictGet?_of_mem_nodup {K V : Type} [DecidableEq K] (d : List (K × V)) (k : K) (v : V)
    (hnd : (d.map Prod.fst).Nodup) (h : (k, v) ∈ d) : pyDictGet? d k = some v := by
  induction d with
  | nil => simp at h
  | cons p rest ih =>
    simp only [List.map_cons, List.nodup_cons] at hnd
    rcases List.mem_cons.1 h with h | h
    · subst h
      simp [pyDictGet?]
    · have hne : p.1 ≠ k := by
        intro he
        exact hnd.1 (he ▸ List.mem_map_of_mem Prod.fst h)
      simp only [pyDictGet?, if_neg hne]
      exact ih hnd.2 h

/-! Shape lemmas for the fetchers. -/

theorem allocList_eq (ps : List Program) (st : St) :
    allocList st ps =
      (List.range' st.heap.length ps.length, { st with heap := st.heap ++ ps }) := by
  induction ps generalizing st with
  | nil => simp [allocList, List.range']
  | cons p rest ih =>
    simp [allocList, alloc, ih, List.range', List.append_assoc]

/-- Reading below the old heap boundary is unaffected by an append. -/
theorem heapGet_append_left (st : St) (l : List Program) (a : Addr) (h : a < st.heap.length) :
    heapGet { st with heap := st.heap ++ l } a = heapGet st a := by
  simp only [heapGet]
  rw [List.getD_eq_getElem?_getD, List.getD_eq_getElem?_getD, List.getElem?_append_left h]

/-- Reading the freshly appended cell. -/
theorem heapGet_append_self (st : St) (p : Program) :
    heapGet { st with heap := st.heap ++ [p] } st.heap.length = p := by
  simp only [heapGet]
  rw [List.getD_eq_getElem?_getD, List.getElem?_concat_length]
  rfl

/-- Reading another address is unaffected by a field assignment. -/
theorem heapGet_set_ne (st : St) (a b : Addr) (p : Program) (h : a ≠ b) :
    heapGet (heapSet st a p) b = heapGet st b := by
  simp only [heapGet, heapSet]
  rw [List.getD_eq_getElem?_getD, List.getD_eq_getElem?_getD, List.getElem?_set_ne h]

/-- Reading back an in-range field assignment. -/
theorem heapGet_set_self (st : St) (a : Addr) (p : Program) (h : a < st.heap.length) :
    heapGet (heapSet st a p) a = p := by
  simp only [heapGet, heapSet]
  rw [List.getD_eq_getElem?_getD, List.getElem?_set]
  simp [h]

theorem getD_range'_map (ps l : List Program) :
    (List.range' l.length ps.length).map (fun a => (l ++ ps).getD a default) = ps := by
  induction ps generalizing l with
  | nil => simp [List.range']
  | cons p rest ih =>
    have h1 : (l ++ p :: rest).getD l.length default = p := by
      rw [List.getD_eq_getElem?_getD, List.getElem?_append_right (Nat.le_refl _)]
      simp
    have h2 := ih (l ++ [p])
    simp only [List.length_append, List.length_singleton, List.append_assoc,
      List.singleton_append] at h2
    simp only [List.length_cons, List.range', List.map_cons, h1]
    rw [h2]

theorem get_programs_enabled_none (env : Env) (type_ : Option String) (st : St)
    (hen : env.integration.enabled = true)
    (hus : env.userExists env.integration.service_username = true) :
    get_programs env none type_ st =
      (PyProgData.plist
        (List.range' st.heap.length (env.fetchList (programs_call env none type_)).length),
       { heap := st.heap ++ env.fetchList (programs_call env none type_)
         cache := st.cache
         calls := st.calls ++ [programs_call env none type_] }) := by
  simp [get_programs, hen, hus, allocList_eq]

theorem get_programs_enabled_some (env : Env) (u : String) (type_ : Option String) (st : St)
    (hen : env.integration.enabled = true)
    (hus : env.userExists env.integration.service_username = true) :
    get_programs env (some u) type_ st =
      (PyProgData.pdict st.heap.length,
       { heap := st.heap ++ [env.fetchOne (programs_call env (some u) type_)]
         cache := st.cache
         calls := st.calls ++ [programs_call env (some u) type_] }) := by
  simp [get_programs, hen, hus, alloc]

theorem get_programs_short_circuit (env : Env) (uuid type_ : Option String) (st : St)
    (h : env.integration.enabled = false ∨
      env.userExists env.integration.service_username = false) :
    get_programs env uuid type_ st = (PyProgData.plist [], st) := by
  rcases h with h | h
  · simp [get_programs, h]
  · cases hen : env.integration.enabled <;> simp [get_programs, hen, h]

theorem get_program_types_short_circuit (env : Env) (st : St)
    (h : env.integration.enabled = false ∨
      env.userExists env.integration.service_username = false) :
    get_program_types env st = ([], st) := by
  rcases h with h | h
  · simp [get_program_types, h]
  · cases hen : env.integration.enabled <;> simp [get_program_types, hen, h]

theorem get_program_types_enabled (env : Env) (st : St)
    (hen : env.integration.enabled = true)
    (hus : env.userExists env.integration.service_username = true) :
    get_program_types env st =
      (env.fetchTypes (program_types_call env),
       { st with calls := st.calls ++ [program_types_call env] }) := by
  simp [get_program_types, hen, hus]

/-- Case split on a successful list-shaped `get_programs` call. -/
theorem get_programs_none_cases (env : Env) (type_ : Option String) (st st1 : St)
    (addrs : List Addr)
    (h : get_programs env none type_ st = (PyProgData.plist addrs, st1)) :
    ((env.integration.enabled = false ∨
        env.userExists env.integration.service_username = false) ∧
      addrs = [] ∧ st1 = st) ∨
    (env.integration.enabled = true ∧
      env.userExists env.integration.service_username = true ∧
      addrs = List.range' st.heap.length (env.fetchList (programs_call env none type_)).length ∧
      st1 = { heap := st.heap ++ env.fetchList (programs_call env none type_)
              cache := st.cache
              calls := st.calls ++ [programs_call env none type_] }) := by
  cases hen : env.integration.enabled with
  | false =>
    left
    have := get_programs_short_circuit env none type_ st (Or.inl hen)
    rw [this] at h
    exact ⟨Or.inl rfl, by simpa using congrArg Prod.fst h.symm,
      by simpa using (congrArg Prod.snd h).symm⟩
  | true =>
    cases hus : env.userExists env.integration.service_username with
    | false =>
      left
      have := get_programs_short_circuit env none type_ st (Or.inr hus)
      rw [this] at h
      exact ⟨Or.inr rfl, by simpa using congrArg Prod.fst h.symm,
        by simpa using (congrArg Prod.snd h).symm⟩
    | true =>
      right
      have := get_programs_enabled_none env type_ st hen hus
      rw [this] at h
      exact ⟨rfl, rfl, by simpa using congrArg Prod.fst h.symm,
        by simpa using (congrArg Prod.snd h).symm⟩

/-- Programs allocated by a list-shaped `get_programs` call read back as the
fetched list, and their addresses are in range. -/
theorem get_programs_none_reads (env : Env) (type_ : Option String) (st st1 : St)
    (addrs : List Addr)
    (h : get_programs env none type_ st = (PyProgData.plist addrs, st1)) :
    addrs.map (heapGet st1) = env.fetchList (programs_call env none type_) ∨ addrs = [] := by
  rcases get_programs_none_cases env type_ st st1 addrs h with ⟨_, ha, _⟩ | ⟨_, _, ha, hs⟩
  · exact Or.inr ha
  · left
    subst ha hs
    exact getD_range'_map _ st.heap

/-- C5 part of the claims: the disabled / missing-user short-circuit. -/
theorem claim_C5_short_circuit_empty (env : Env) (uuid type_ : Option String) (st : St)
    (h : env.integration.enabled = false ∨
      env.userExists env.integration.service_username = false) :
    get_programs env uuid type_ st = (PyProgData.plist [], st) ∧
    get_program_types env st = ([], st) :=
  ⟨get_programs_short_circuit env uuid type_ st h, get_program_types_short_circuit env st h⟩

theorem claim_C5_short_circuit_empty_witness :
    (env_off.integration.enabled = false ∨
      env_off.userExists env_off.integration.service_username = false) ∧
    (get_programs env_off (some "u") (some "T") st0 = (PyProgData.plist [], st0) ∧
      get_program_types env_off st0 = ([], st0)) :=
  ⟨Or.inl rfl,
    claim_C5_short_circuit_empty env_off (some "u") (some "T") st0 (Or.inl rfl)⟩

/-- C6 counterexample: passing the empty string as both uuid and type (so
both arguments are given) logs a call whose querystring carries neither
`use_full_course_serializer=1` nor a `type=` entry and whose cache key
lacks the `.<type>` suffix — the source tests Python truthiness
(`if uuid:`, `if type:`), under which an empty string counts as absent, so
the unconditional "iff given" contract fails. -/
theorem claim_C6_fetch_call_contract_counterexample :
    env_on.integration.enabled = true ∧
    env_on.userExists env_on.integration.service_username = true ∧
    (get_programs env_on (some "") (some "") st0).2.calls =
      st0.calls ++ [programs_call env_on (some "") (some "")] ∧
    (programs_call env_on (some "") (some "")).resource_id = some "" ∧
    (programs_call env_on (some "") (some "")).cache_key = some "pfx.programs" ∧
    (∀ v, ("use_full_course_serializer", v) ∉ programs_querystring (some "") (some "")) ∧
    (∀ v, ("type", v) ∉ programs_querystring (some "") (some "")) := by
  have hq : programs_querystring (some "") (some "") =
      [("marketable", QVal.int 1), ("exclude_utm", QVal.int 1)] := rfl
  refine ⟨rfl, rfl, by decide, rfl, by decide, ?_, ?_⟩
  · intro v hv
    rw [hq] at hv
    simp at hv
  · intro v hv
    rw [hq] at hv
    simp at hv

/-- C6 (amended): a `get_programs` call that reaches the fetch utility logs
exactly one call, against the `programs` resource with `resource_id` the
uuid; its cache key is `<prefix>.programs`, suffixed `.<type>` exactly for
a truthy (non-empty) type, and dropped entirely when the configuration's
cache is disabled; its querystring holds exactly `marketable=1` and
`exclude_utm=1`, plus `use_full_course_serializer=1` iff the uuid argument
is truthy and `type=<type>` iff the type argument is truthy (Python
truthiness: `None` and `""` count as absent). -/
theorem claim_C6_fetch_call_contract (env : Env) (uuid type_ : Option String) (st : St)
    (hen : env.integration.enabled = true)
    (hus : env.userExists env.integration.service_username = true) :
    (get_programs env uuid type_ st).2.calls = st.calls ++ [programs_call env uuid type_] ∧
    (programs_call env uuid type_).resource = "programs" ∧
    (programs_call env uuid type_).resource_id = uuid ∧
    (py_str_truthy type_ = false →
      (programs_call env uuid type_).cache_key =
        (if env.integration.is_cache_enabled
         then some (env.integration.CACHE_KEY ++ ".programs")
         else none)) ∧
    (∀ t, type_ = some t → py_str_truthy (some t) = true →
      (programs_call env uuid type_).cache_key =
        (if env.integration.is_cache_enabled
         then some (env.integration.CACHE_KEY ++ ".programs." ++ t)
         else none)) ∧
    (programs_call env uuid type_).querystring = some (programs_querystring uuid type_) ∧
    (∀ k v, (k, v) ∈ programs_querystring uuid type_ ↔
      ((k = "marketable" ∧ v = QVal.int 1) ∨
       (k = "exclude_utm" ∧ v = QVal.int 1) ∨
       (py_str_truthy uuid = true ∧ k = "use_full_course_serializer" ∧ v = QVal.int 1) ∨
       (∃ t, type_ = some t ∧ py_str_truthy (some t) = true ∧ k = "type" ∧
         v = QVal.str t))) := by
  refine ⟨?_, rfl, rfl, ?_, ?_, rfl, ?_⟩
  · cases uuid with
    | none => rw [get_programs_enabled_none env type_ st hen hus]
    | some u => rw [get_programs_enabled_some env u type_ st hen hus]
  · intro hfalse
    have hkey : programs_cache_key env.integration type_ =
        env.integration.CACHE_KEY ++ ".programs" := by
      cases type_ with
      | none => rfl
      | some t => simp [programs_cache_key, hfalse]
    simp [programs_call, hkey]
  · rintro t rfl htrue
    have hkey : programs_cache_key env.integration (some t) =
        env.integration.CACHE_KEY ++ ".programs." ++ t := by
      simp [programs_cache_key, htrue]
    simp [programs_call, hkey]
  · intro k v
    cases uuid with
    | none =>
      cases type_ with
      | none => simp [programs_querystring, py_str_truthy]
      | some t =>
        cases ht : t.isEmpty <;>
          simp [programs_querystring, py_str_truthy, ht]
    | some u =>
      cases hu : u.isEmpty with
      | false =>
        cases type_ with
        | none => simp [programs_querystring, py_str_truthy, hu]
        | some t =>
          cases ht : t.isEmpty <;>
            simp [programs_querystring, py_str_truthy, hu, ht]
      | true =>
        cases type_ with
        | none => simp [programs_querystring, py_str_truthy, hu]
        | some t =>
          cases ht : t.isEmpty <;>
            simp [programs_querystring, py_str_truthy, hu, ht]

theorem claim_C6_fetch_call_contract_witness :
    env_on.integration.enabled = true ∧
    env_on.userExists env_on.integration.service_username = true ∧
    ((get_programs env_on (some "u1") (some "T1") st0).2.calls =
        st0.calls ++ [programs_call env_on (some "u1") (some "T1")] ∧
      (programs_call env_on (some "u1") (some "T1")).resource = "programs" ∧
      (programs_call env_on (some "u1") (some "T1")).resource_id = some "u1" ∧
      (py_str_truthy (some "T1") = false →
        (programs_call env_on (some "u1") (some "T1")).cache_key =
          (if env_on.integration.is_cache_enabled
           then some (env_on.integration.CACHE_KEY ++ ".programs")
           else none)) ∧
      (∀ t, (some "T1" : Option String) = some t → py_str_truthy (some t) = true →
        (programs_call env_on (some "u1") (some "T1")).cache_key =
          (if env_on.integration.is_cache_enabled
           then some (env_on.integration.CACHE_KEY ++ ".programs." ++ t)
           else none)) ∧
      (programs_call env_on (some "u1") (some "T1")).querystring =
        some (programs_querystring (some "u1") (some "T1")) ∧
      (∀ k v, (k, v) ∈ programs_querystring (some "u1") (some "T1") ↔
        ((k = "marketable" ∧ v = QVal.int 1) ∨
         (k = "exclude_utm" ∧ v = QVal.int 1) ∨
         (py_str_truthy (some "u1") = true ∧ k = "use_full_course_serializer" ∧
            v = QVal.int 1) ∨
         (∃ t, (some "T1" : Option String) = some t ∧ py_str_truthy (some t) = true ∧
            k = "type" ∧ v = QVal.str t)))) :=
  ⟨rfl, rfl,
    claim_C6_fetch_call_contract env_on (some "u1") (some "T1") st0 rfl rfl⟩

/-- A successful `find?` under a first-match certificate. -/
theorem find?_of_first {α : Type} (p : α → Bool) (l : List α) (i : Nat) (hi : i < l.length)
    (hp : p (l.get ⟨i, hi⟩) = true)
    (hmin : ∀ j (hj : j < l.length), j < i → p (l.get ⟨j, hj⟩) = false) :
    l.find? p = some (l.get ⟨i, hi⟩) := by
  induction l generalizing i with
  | nil => exact absurd hi (by simp)
  | cons b rest ih =>
    cases i with
    | zero => exact List.find?_cons_of_pos rest hp
    | succ i =>
      have hb : p b = false := hmin 0 (by simp) (Nat.succ_pos i)
      rw [List.find?_cons_of_neg rest (by simp [hb])]
      exact ih i (Nat.lt_of_succ_lt_succ hi) hp
        (fun j hj hji => hmin (j + 1) (by simpa using Nat.succ_lt_succ hj)
          (Nat.succ_lt_succ hji))

/-- C7: `get_program_type(n)` returns the first entry of
`get_program_types()` whose name is `n`, and fails with the
`StopIteration`-class error returned to the caller when no entry matches
(in particular on an empty type list). -/
theorem claim_C7_get_program_type_first_match (env : Env) (st st1 : St) (n : String)
    (types : List ProgramType) (h : get_program_types env st = (types, st1)) :
    ((∀ pt ∈ types, pt.name ≠ n) →
      get_program_type env (TypeField.name n) st = (Except.error PyErr.stopIteration, st1)) ∧
    (∀ i, ∀ hi : i < types.length, (types.get ⟨i, hi⟩).name = n →
      (∀ j, ∀ hj : j < types.length, j < i → (types.get ⟨j, hj⟩).name ≠ n) →
      get_program_type env (TypeField.name n) st = (Except.ok (types.get ⟨i, hi⟩), st1)) := by
  constructor
  · intro hnone
    have hfind : types.find? (fun pt => py_eq_str_tf pt.name (TypeField.name n)) = none := by
      rw [List.find?_eq_none]
      intro pt hpt
      simp [py_eq_str_tf]
      exact hnone pt hpt
    simp [get_program_type, h, hfind]
  · intro i hi hname hmin
    have hfind : types.find? (fun pt => py_eq_str_tf pt.name (TypeField.name n)) =
        some (types.get ⟨i, hi⟩) := by
      refine find?_of_first _ types i hi (by simp only [py_eq_str_tf]; simpa using hname) ?_
      intro j hj hji
      simp [py_eq_str_tf]
      exact hmin j hj hji
    simp [get_program_type, h, hfind]

theorem claim_C7_get_program_type_first_match_witness :
    get_program_types env_on st0 =
      ([⟨"T1", "d1"⟩, ⟨"T2", "d2"⟩],
        { st0 with calls := st0.calls ++ [program_types_call env_on] }) ∧
    (((∀ pt ∈ ([⟨"T1", "d1"⟩, ⟨"T2", "d2"⟩] : List ProgramType), pt.name ≠ "T2") →
        get_program_type env_on (TypeField.name "T2") st0 =
          (Except.error PyErr.stopIteration,
            { st0 with calls := st0.calls ++ [program_types_call env_on] })) ∧
      (∀ i, ∀ hi : i < ([⟨"T1", "d1"⟩, ⟨"T2", "d2"⟩] : List ProgramType).length,
        (([⟨"T1", "d1"⟩, ⟨"T2", "d2"⟩] : List ProgramType).get ⟨i, hi⟩).name = "T2" →
        (∀ j, ∀ hj : j < ([⟨"T1", "d1"⟩, ⟨"T2", "d2"⟩] : List ProgramType).length, j < i →
          (([⟨"T1", "d1"⟩, ⟨"T2", "d2"⟩] : List ProgramType).get ⟨j, hj⟩).name ≠ "T2") →
        get_program_type env_on (TypeField.name "T2") st0 =
          (Except.ok (([⟨"T1", "d1"⟩, ⟨"T2", "d2"⟩] : List ProgramType).get ⟨i, hi⟩),
            { st0 with calls := st0.calls ++ [program_types_call env_on] }))) :=
  ⟨by decide,
    claim_C7_get_program_type_first_match env_on st0
      { st0 with calls := st0.calls ++ [program_types_call env_on] } "T2"
      [⟨"T1", "d1"⟩, ⟨"T2", "d2"⟩] (by decide)⟩

/-- C10: `_get_program_instructors` treats any falsy cached value (a miss
or a cached empty list) as a miss: it recomputes the instructor list from
the module store dict and overwrites the cache entry; only a non-empty
cached list short-circuits the recomputation, leaving the state
untouched. -/
theorem claim_C10_instructor_cache_falsiness (env : Env) (program : Program) (st : St) :
    (py_falsy (pyDictGet? st.cache ("program.instructors." ++ program.uuid)) = true →
      get_program_instructors env program st =
        ((program_instructors_dict env program).map (fun p => p.2),
          { st with cache := pyDictInsert st.cache ("program.instructors." ++ program.uuid) ((program_instructors_dict env program).map (fun p => p.2)) })) ∧
    (∀ l, pyDictGet? st.cache ("program.instructors." ++ program.uuid) = some l → l ≠ [] →
      get_program_instructors env program st = (l, st)) := by
  constructor
  · intro h
    simp [get_program_instructors, h]
  · intro l hl hne
    have hfal : py_falsy (some l) = false := by
      cases l with
      | nil => exact absurd rfl hne
      | cons x xs => simp [py_falsy]
    simp [get_program_instructors, hl, hfal]

theorem claim_C10_instructor_cache_falsiness_witness :
    (py_falsy (pyDictGet? st_cache_empty.cache ("program.instructors." ++ fix_p1.uuid)) = true ∧
      get_program_instructors env_on fix_p1 st_cache_empty =
        ((program_instructors_dict env_on fix_p1).map (fun p => p.2),
          { st_cache_empty with cache := pyDictInsert st_cache_empty.cache ("program.instructors." ++ fix_p1.uuid) ((program_instructors_dict env_on fix_p1).map (fun p => p.2)) })) ∧
    (pyDictGet? st_cache_warm.cache ("program.instructors." ++ fix_p1.uuid) = some [fix_bob] ∧
      [fix_bob] ≠ [] ∧
      get_program_instructors env_on fix_p1 st_cache_warm = ([fix_bob], st_cache_warm)) :=
  ⟨⟨by decide,
      (claim_C10_instructor_cache_falsiness env_on fix_p1 st_cache_empty).1 (by decide)⟩,
    ⟨by decide, by decide,
      (claim_C10_instructor_cache_falsiness env_on fix_p1 st_cache_warm).2 [fix_bob]
        (by decide) (by decide)⟩⟩

/-- Folding the instructor merge over only the found course descriptors
equals the source loop, which skips missing descriptors. -/
theorem instructors_fold_skips_missing (env : Env) (keys : List CourseKey)
    (d : List (Option String × Instructor)) :
    keys.foldl
      (fun d course_run_key =>
        match env.getCourse course_run_key with
        | some course_descriptor =>
          (course_effective_instructors course_descriptor).foldl
            (fun d instructor => pyDictInsert d (instructorName instructor) instructor)
            d
        | none => d)
      d =
    (keys.filterMap env.getCourse).foldl
      (fun d course_descriptor =>
        (course_effective_instructors course_descriptor).foldl
          (fun d instructor => pyDictInsert d (instructorName instructor) instructor)
          d)
      d := by
  induction keys generalizing d with
  | nil => rfl
  | cons k rest ih =>
    cases hk : env.getCourse k with
    | none => simp [List.filterMap_cons, hk, ih]
    | some cd => simp [List.filterMap_cons, hk, ih]

/-- C8: during instructor aggregation every course run key whose
modulestore lookup returns nothing is silently skipped — the dict equals
the fold over the found descriptors only, so the remaining course runs
still contribute — and a descriptor without `instructor_info` contributes
no instructors. -/
theorem claim_C8_missing_descriptors_skipped (env : Env) (program : Program) :
    program_instructors_dict env program =
      ((get_program_course_run_keys program).filterMap env.getCourse).foldl
        (fun d course_descriptor =>
          (course_effective_instructors course_descriptor).foldl
            (fun d instructor => pyDictInsert d (instructorName instructor) instructor)
            d)
        [] ∧
    (∀ cd : CourseDescriptor, cd.instructor_info = none →
      course_effective_instructors cd = []) :=
  ⟨instructors_fold_skips_missing env (get_program_course_run_keys program) [],
    fun _ h => by simp [course_effective_instructors, h]⟩

theorem claim_C8_missing_descriptors_skipped_witness :
    program_instructors_dict env_on fix_p3 =
      ((get_program_course_run_keys fix_p3).filterMap env_on.getCourse).foldl
        (fun d course_descriptor =>
          (course_effective_instructors course_descriptor).foldl
            (fun d instructor => pyDictInsert d (instructorName instructor) instructor)
            d)
        [] ∧
    CourseDescriptor.instructor_info ⟨none⟩ = none ∧
    course_effective_instructors ⟨none⟩ = [] :=
  ⟨(claim_C8_missing_descriptors_skipped env_on fix_p3).1, rfl,
    (claim_C8_missing_descriptors_skipped env_on fix_p3).2 ⟨none⟩ rfl⟩

theorem stream_fold_shift (g : CourseDescriptor → List Instructor)
    (cds : List CourseDescriptor) (s0 : List Instructor) :
    cds.foldl (fun s cd => s ++ g cd) s0 = s0 ++ cds.foldl (fun s cd => s ++ g cd) [] := by
  induction cds generalizing s0 with
  | nil => simp
  | cons cd rest ih =>
    simp only [List.foldl_cons, List.nil_append]
    rw [ih (s0 ++ g cd), ih (g cd), List.append_assoc]

theorem insert_fold_over_stream (cds : List CourseDescriptor)
    (d0 : List (Option String × Instructor)) :
    cds.foldl
      (fun d course_descriptor =>
        (course_effective_instructors course_descriptor).foldl
          (fun d instructor => pyDictInsert d (instructorName instructor) instructor)
          d)
      d0 =
    (cds.foldl (fun s cd => s ++ course_effective_instructors cd) []).foldl
      (fun d instructor => pyDictInsert d (instructorName instructor) instructor)
      d0 := by
  induction cds generalizing d0 with
  | nil => rfl
  | cons cd rest ih =>
    simp only [List.foldl_cons, List.nil_append]
    rw [ih, stream_fold_shift course_effective_instructors rest
      (course_effective_instructors cd), List.foldl_append]

/-- The instructor dict is the name-keyed insertion fold over the flat
stream of contributed instructors, in processing order. -/
theorem program_instructors_dict_eq_stream_fold (env : Env) (program : Program) :
    program_instructors_dict env program =
      (instructor_stream env program).foldl
        (fun d instructor => pyDictInsert d (instructorName instructor) instructor)
        [] := by
  unfold program_instructors_dict instructor_stream
  rw [instructors_fold_skips_missing, insert_fold_over_stream]

/-- Looking up a name in the insertion fold yields the last instructor of
the stream carrying that name (falling back to the initial dict). -/
theorem pyDictGet?_insert_fold (s : List Instructor)
    (d : List (Option String × Instructor)) (k : Option String) :
    pyDictGet? (s.foldl (fun d i => pyDictInsert d (instructorName i) i) d) k =
      (match (s.filter (fun i => decide (instructorName i = k))).getLast? with
       | some v => some v
       | none => pyDictGet? d k) := by
  induction s generalizing d with
  | nil => simp
  | cons i rest ih =>
    simp only [List.foldl_cons, List.filter_cons]
    by_cases hk : instructorName i = k
    · rw [if_pos (by simp [hk]), ih, hk]
      cases hrest : (rest.filter (fun j => decide (instructorName j = k))).getLast? with
      | some v => simp [List.getLast?_cons, hrest]
      | none => simp [List.getLast?_cons, hrest, pyDictGet?_insert_self]
    · rw [if_neg (by simp [hk]), ih]
      cases hrest : (rest.filter (fun j => decide (instructorName j = k))).getLast? with
      | some v => simp [hrest]
      | none =>
        simp only [hrest]
        exact pyDictGet?_insert_ne d (instructorName i) k i (fun he => hk he.symm)

theorem keys_mem_insert_fold (s : List Instructor) (d : List (Option String × Instructor))
    (k : Option String) :
    k ∈ (s.foldl (fun d i => pyDictInsert d (instructorName i) i) d).map Prod.fst ↔
      k ∈ d.map Prod.fst ∨ k ∈ s.map instructorName := by
  induction s generalizing d with
  | nil => simp
  | cons i rest ih =>
    simp only [List.foldl_cons, List.map_cons, List.mem_cons]
    rw [ih]
    rw [pyDictInsert_keys_mem]
    tauto

theorem keys_nodup_insert_fold (s : List Instructor) (d : List (Option String × Instructor))
    (h : (d.map Prod.fst).Nodup) :
    ((s.foldl (fun d i => pyDictInsert d (instructorName i) i) d).map Prod.fst).Nodup := by
  induction s generalizing d with
  | nil => exact h
  | cons i rest ih =>
    simp only [List.foldl_cons]
    exact ih _ (pyDictInsert_keys_nodup d (instructorName i) i h)

theorem values_inv_insert_fold (s : List Instructor) (d : List (Option String × Instructor))
    (h : ∀ p ∈ d, instructorName p.2 = p.1) :
    ∀ p ∈ s.foldl (fun d i => pyDictInsert d (instructorName i) i) d,
      instructorName p.2 = p.1 := by
  induction s generalizing d with
  | nil => exact h
  | cons i rest ih =>
    simp only [List.foldl_cons]
    exact ih _ (pyDictInsert_values instructorName d (instructorName i) i rfl h)

/-- C3: on a cold (falsy) cache the instructor list returned for a program
holds exactly one entry per distinct instructor name contributed by the
program's course runs, and the entry kept for a name is the last one in
processing order — a later course run's entry overwrites an earlier
same-named one (the Python set of course run keys being modelled with a
fixed insertion order). -/
theorem claim_C3_instructor_dedup_last_wins (env : Env) (program : Program) (st : St)
    (res s : List Instructor)
    (hcold : py_falsy (pyDictGet? st.cache ("program.instructors." ++ program.uuid)) = true)
    (hres : (get_program_instructors env program st).1 = res)
    (hs : instructor_stream env program = s) :
    (res.map instructorName).Nodup ∧
    (∀ n, n ∈ res.map instructorName ↔ n ∈ s.map instructorName) ∧
    (∀ i ∈ res,
      (s.filter (fun j => decide (instructorName j = instructorName i))).getLast? = some i) := by
  subst hres hs
  have hd : (get_program_instructors env program st).1 =
      (program_instructors_dict env program).map (fun p => p.2) := by
    simp [get_program_instructors, hcold]
  rw [hd]
  have hD := program_instructors_dict_eq_stream_fold env program
  have hinv : ∀ p ∈ program_instructors_dict env program, instructorName p.2 = p.1 := by
    rw [hD]
    exact values_inv_insert_fold _ [] (by simp)
  have hnd : ((program_instructors_dict env program).map Prod.fst).Nodup := by
    rw [hD]
    exact keys_nodup_insert_fold _ [] (by simp)
  have hnames : ((program_instructors_dict env program).map (fun p => p.2)).map instructorName =
      (program_instructors_dict env program).map Prod.fst := by
    rw [List.map_map]
    exact List.map_congr_left (fun p hp => hinv p hp)
  refine ⟨by rw [hnames]; exact hnd, ?_, ?_⟩
  · intro n
    rw [hnames, hD, keys_mem_insert_fold]
    simp
  · intro i hi
    obtain ⟨p, hp, hpi⟩ := List.mem_map.1 hi
    have hk : instructorName p.2 = p.1 := hinv p hp
    have hget : pyDictGet? (program_instructors_dict env program) p.1 = some p.2 := by
      refine pyDictGet?_of_mem_nodup _ p.1 p.2 hnd ?_
      simpa using hp
    rw [hD, pyDictGet?_insert_fold] at hget
    subst hpi
    rw [hk]
    cases hrest :
        ((instructor_stream env program).filter
          (fun j => decide (instructorName j = p.1))).getLast? with
    | some v =>
      rw [hrest] at hget
      simpa using hget
    | none =>
      rw [hrest] at hget
      simp [pyDictGet?] at hget

theorem claim_C3_instructor_dedup_last_wins_witness :
    py_falsy (pyDictGet? st0.cache ("program.instructors." ++ fix_p1.uuid)) = true ∧
    (get_program_instructors env_on fix_p1 st0).1 = [fix_alice2, fix_bob] ∧
    instructor_stream env_on fix_p1 = [fix_alice, fix_bob, fix_alice2] ∧
    (([fix_alice2, fix_bob].map instructorName).Nodup ∧
      (∀ n, n ∈ [fix_alice2, fix_bob].map instructorName ↔
        n ∈ [fix_alice, fix_bob, fix_alice2].map instructorName) ∧
      (∀ i ∈ [fix_alice2, fix_bob],
        ([fix_alice, fix_bob, fix_alice2].filter
          (fun j => decide (instructorName j = instructorName i))).getLast? = some i)) :=
  ⟨by decide, by decide, by decide,
    claim_C3_instructor_dedup_last_wins env_on fix_p1 st0 [fix_alice2, fix_bob]
      [fix_alice, fix_bob, fix_alice2] (by decide) (by decide) (by decide)⟩

theorem pyDictGet?_keys_mem {K V : Type} [DecidableEq K] (d : List (K × V)) (k : K) :
    k ∈ d.map Prod.fst ↔ ∃ v, pyDictGet? d k = some v := by
  induction d with
  | nil => simp [pyDictGet?]
  | cons p rest ih =>
    by_cases hp : p.1 = k
    · simp [pyDictGet?, hp]
    · simp only [List.map_cons, List.mem_cons, pyDictGet?, if_neg hp, ih]
      constructor
      · rintro (rfl | h)
        · exact absurd rfl hp
        · exact h
      · exact Or.inr

theorem types_by_name_keys_mem (types : List ProgramType) (k : String) :
    k ∈ (program_types_by_name types).map Prod.fst ↔ k ∈ types.map ProgramType.name := by
  unfold program_types_by_name
  suffices h : ∀ d : List (String × ProgramType),
      k ∈ (types.foldl (fun d pt => pyDictInsert d pt.name pt) d).map Prod.fst ↔
        k ∈ d.map Prod.fst ∨ k ∈ types.map ProgramType.name by
    simpa using h []
  induction types with
  | nil => simp
  | cons pt rest ih =>
    intro d
    simp only [List.foldl_cons, List.map_cons, List.mem_cons]
    rw [ih, pyDictInsert_keys_mem]
    tauto

theorem types_by_name_values_inv (types : List ProgramType) :
    ∀ p ∈ program_types_by_name types, p.2.name = p.1 := by
  unfold program_types_by_name
  suffices h : ∀ d : List (String × ProgramType), (∀ p ∈ d, p.2.name = p.1) →
      ∀ p ∈ types.foldl (fun d pt => pyDictInsert d pt.name pt) d, p.2.name = p.1 by
    exact h [] (by simp)
  induction types with
  | nil => exact fun d hd => hd
  | cons pt rest ih =>
    intro d hd
    simp only [List.foldl_cons]
    exact ih _ (pyDictInsert_values ProgramType.name d pt.name pt rfl hd)

/-- The dict subscript on the name-to-type dict: absent names raise the
`KeyError`, present names return a type object carrying that very name. -/
theorem types_by_name_getitem (types : List ProgramType) (t : String) :
    (t ∉ types.map ProgramType.name →
      program_types_getitem (program_types_by_name types) (TypeField.name t) =
        Except.error (PyErr.keyError t)) ∧
    (t ∈ types.map ProgramType.name →
      ∃ pt, program_types_getitem (program_types_by_name types) (TypeField.name t) =
          Except.ok pt ∧ pt.name = t) := by
  constructor
  · intro hmem
    have : pyDictGet? (program_types_by_name types) t = none := by
      cases hg : pyDictGet? (program_types_by_name types) t with
      | none => rfl
      | some v =>
        exact absurd ((types_by_name_keys_mem types t).1
          ((pyDictGet?_keys_mem _ t).2 ⟨v, hg⟩)) hmem
    simp [program_types_getitem, this]
  · intro hmem
    obtain ⟨v, hv⟩ := (pyDictGet?_keys_mem _ t).1 ((types_by_name_keys_mem types t).2 hmem)
    refine ⟨v, by simp [program_types_getitem, hv], ?_⟩
    exact types_by_name_values_inv types (t, v) (pyDictGet?_mem _ t v hv)

/-! State-shape lemmas used by the composer proofs. -/

theorem get_programs_state (env : Env) (uuid type_ : Option String) (st : St) :
    (get_programs env uuid type_ st).2.cache = st.cache ∧
    st.heap.length ≤ (get_programs env uuid type_ st).2.heap.length ∧
    (∀ a, a < st.heap.length →
      heapGet (get_programs env uuid type_ st).2 a = heapGet st a) := by
  cases hen : env.integration.enabled with
  | false =>
    rw [get_programs_short_circuit env uuid type_ st (Or.inl hen)]
    exact ⟨rfl, Nat.le_refl _, fun a _ => rfl⟩
  | true =>
    cases hus : env.userExists env.integration.service_username with
    | false =>
      rw [get_programs_short_circuit env uuid type_ st (Or.inr hus)]
      exact ⟨rfl, Nat.le_refl _, fun a _ => rfl⟩
    | true =>
      cases uuid with
      | none =>
        rw [get_programs_enabled_none env type_ st hen hus]
        refine ⟨rfl, by simp, fun a ha => ?_⟩
        exact heapGet_append_left { st with calls := st.calls ++ [programs_call env none type_] }
          _ a ha
      | some u =>
        rw [get_programs_enabled_some env u type_ st hen hus]
        refine ⟨rfl, by simp, fun a ha => ?_⟩
        exact heapGet_append_left
          { st with calls := st.calls ++ [programs_call env (some u) type_] } _ a ha

theorem get_program_types_state (env : Env) (st : St) :
    (get_program_types env st).2.heap = st.heap ∧
    (get_program_types env st).2.cache = st.cache := by
  cases hen : env.integration.enabled with
  | false => rw [get_program_types_short_circuit env st (Or.inl hen)]; exact ⟨rfl, rfl⟩
  | true =>
    cases hus : env.userExists env.integration.service_username with
    | false => rw [get_program_types_short_circuit env st (Or.inr hus)]; exact ⟨rfl, rfl⟩
    | true => rw [get_program_types_enabled env st hen hus]; exact ⟨rfl, rfl⟩

theorem get_program_types_fst (env : Env) (st st' : St) :
    (get_program_types env st).1 = (get_program_types env st').1 := by
  cases hen : env.integration.enabled with
  | false =>
    rw [get_program_types_short_circuit env st (Or.inl hen),
      get_program_types_short_circuit env st' (Or.inl hen)]
  | true =>
    cases hus : env.userExists env.integration.service_username with
    | false =>
      rw [get_program_types_short_circuit env st (Or.inr hus),
        get_program_types_short_circuit env st' (Or.inr hus)]
    | true =>
      rw [get_program_types_enabled env st hen hus, get_program_types_enabled env st' hen hus]

theorem get_program_type_state (env : Env) (name : TypeField) (st : St) :
    (get_program_type env name st).2.heap = st.heap ∧
    (get_program_type env name st).2.cache = st.cache := by
  have h := get_program_types_state env st
  unfold get_program_type
  cases hg : get_program_types env st with
  | mk types st1 =>
    rw [hg] at h
    simp only at h
    dsimp only
    cases hfind : types.find? (fun pt => py_eq_str_tf pt.name name) <;>
      simp only [hfind] <;> exact h

theorem get_program_type_fst (env : Env) (name : TypeField) (st st' : St) :
    (get_program_type env name st).1 = (get_program_type env name st').1 := by
  have h := get_program_types_fst env st st'
  unfold get_program_type
  cases hg : get_program_types env st with
  | mk types st1 =>
    cases hg' : get_program_types env st' with
    | mk types' st1' =>
      rw [hg, hg'] at h
      simp only at h
      subst h
      dsimp only
      cases hfind : types.find? (fun pt => py_eq_str_tf pt.name name) <;>
        simp only [hfind]

theorem get_program_instructors_state (env : Env) (program : Program) (st : St) :
    (get_program_instructors env program st).2.heap = st.heap ∧
    (get_program_instructors env program st).2.calls = st.calls := by
  cases hfal : py_falsy (pyDictGet? st.cache ("program.instructors." ++ program.uuid)) <;>
    simp [get_program_instructors, hfal]

theorem get_program_instructors_fst_cache (env : Env) (program : Program) (st st' : St)
    (h : st.cache = st'.cache) :
    (get_program_instructors env program st).1 = (get_program_instructors env program st').1 := by
  have h' : pyDictGet? st.cache ("program.instructors." ++ program.uuid) =
      pyDictGet? st'.cache ("program.instructors." ++ program.uuid) := by rw [h]
  cases hfal : py_falsy (pyDictGet? st'.cache ("program.instructors." ++ program.uuid)) <;>
    simp [get_program_instructors, h', hfal]

theorem deepcopy_eq (st : St) (a : Addr) :
    deepcopy st a = (st.heap.length, { st with heap := st.heap ++ [heapGet st a] }) := rfl

/-- The enrichment loop only allocates and mutates fresh copies: entries
below the incoming heap boundary are left unchanged, and neither the cache
nor the call log is touched. -/
theorem gpwt_loop_state (ptd : List (String × ProgramType)) (it : Option (List String))
    (l : List Addr) (st : St) :
    st.heap.length ≤ (gpwt_loop ptd it l st).2.heap.length ∧
    (gpwt_loop ptd it l st).2.cache = st.cache ∧
    (gpwt_loop ptd it l st).2.calls = st.calls ∧
    ∀ b, b < st.heap.length → heapGet (gpwt_loop ptd it l st).2 b = heapGet st b := by
  induction l generalizing st with
  | nil => exact ⟨Nat.le_refl _, rfl, rfl, fun b _ => rfl⟩
  | cons a rest ih =>
    simp only [gpwt_loop]
    by_cases hsel : program_selected (heapGet st a).type it = true
    · rw [if_pos hsel, deepcopy_eq]
      dsimp only
      cases hget : program_types_getitem ptd (heapGet st a).type with
      | error e =>
        simp only [hget]
        exact ⟨by simp, by trivial, by trivial, fun b hb => heapGet_append_left st _ b hb⟩
      | ok pt =>
        simp only [hget]
        set st2 := heapSet { st with heap := st.heap ++ [heapGet st a] } st.heap.length
          { heapGet { st with heap := st.heap ++ [heapGet st a] } st.heap.length with
              type := TypeField.obj pt } with hst2
        obtain ⟨ih1, ih2, ih3, ih4⟩ := ih st2
        have hlen2 : st2.heap.length = st.heap.length + 1 := by
          simp [hst2, heapSet]
        have hc2 : st2.cache = st.cache := by simp [hst2, heapSet]
        have hl2 : st2.calls = st.calls := by simp [hst2, heapSet]
        have hread2 : ∀ b, b < st.heap.length → heapGet st2 b = heapGet st b := by
          intro b hb
          rw [hst2, heapGet_set_ne _ _ _ _ (Nat.ne_of_gt hb)]
          exact heapGet_append_left st _ b hb
        cases hrec : gpwt_loop ptd it rest st2 with
        | mk r st3 =>
          rw [hrec] at ih1 ih2 ih3 ih4
          dsimp only at ih1 ih2 ih3 ih4
          have hout : st.heap.length ≤ st3.heap.length ∧ st3.cache = st.cache ∧
              st3.calls = st.calls ∧
              ∀ b, b < st.heap.length → heapGet st3 b = heapGet st b := by
            refine ⟨by omega, by rw [ih2, hc2], by rw [ih3, hl2], fun b hb => ?_⟩
            rw [ih4 b (by omega), hread2 b hb]
          cases r with
          | error e => exact hout
          | ok tail => exact hout
    · rw [if_neg hsel]
      exact ih st

theorem heapGet_eq_of_heap (st st' : St) (a : Addr) (h : st.heap = st'.heap) :
    heapGet st a = heapGet st' a := by
  simp [heapGet, h]

theorem get_programs_none_addr_lt (env : Env) (type_ : Option String) (st st1 : St)
    (addrs : List Addr) (h : get_programs env none type_ st = (PyProgData.plist addrs, st1)) :
    ∀ a ∈ addrs, a < st1.heap.length := by
  rcases get_programs_none_cases env type_ st st1 addrs h with ⟨_, ha, _⟩ | ⟨_, _, ha, hs⟩
  · subst ha
    simp
  · subst ha hs
    intro a hmem
    have hb := List.mem_range'_1.1 hmem
    show a < (st.heap ++ env.fetchList (programs_call env none type_)).length
    simp only [List.length_append]
    exact hb.2

theorem get_programs_some_cases (env : Env) (u : String) (type_ : Option String) (st st2 : St)
    (fa : Addr) (h : get_programs env (some u) type_ st = (PyProgData.pdict fa, st2)) :
    env.integration.enabled = true ∧
    env.userExists env.integration.service_username = true ∧
    fa = st.heap.length ∧
    st2 = { heap := st.heap ++ [env.fetchOne (programs_call env (some u) type_)]
            cache := st.cache
            calls := st.calls ++ [programs_call env (some u) type_] } := by
  cases hen : env.integration.enabled with
  | false =>
    rw [get_programs_short_circuit env (some u) type_ st (Or.inl hen)] at h
    exact absurd (congrArg Prod.fst h) (by simp)
  | true =>
    cases hus : env.userExists env.integration.service_username with
    | false =>
      rw [get_programs_short_circuit env (some u) type_ st (Or.inr hus)] at h
      exact absurd (congrArg Prod.fst h) (by simp)
    | true =>
      rw [get_programs_enabled_some env u type_ st hen hus] at h
      have hfa := congrArg Prod.fst h
      have hst := congrArg Prod.snd h
      simp only at hfa hst
      exact ⟨rfl, rfl, by simpa using hfa.symm, hst.symm⟩

/-- Full execution of `get_program_with_type_and_instructors` after the
initial program-list fetch: the null result on a missing slug, frame
preservation of every object allocated up to the uuid re-fetch, and the
enriched copy returned when the type lookup succeeds. -/
theorem gpwti_exec (env : Env) (slug : String) (st st1 : St) (addrs : List Addr)
    (h1 : get_programs env none none st = (PyProgData.plist addrs, st1)) :
    (addrs.find? (fun x => (heapGet st1 x).marketing_slug == slug) = none →
      get_program_with_type_and_instructors env slug st = (Except.ok none, st1)) ∧
    (∀ a, addrs.find? (fun x => (heapGet st1 x).marketing_slug == slug) = some a →
      ∀ fa st2, get_programs env (some (heapGet st1 a).uuid) none st1 =
          (PyProgData.pdict fa, st2) →
        (st2.heap.length ≤ (get_program_with_type_and_instructors env slug st).2.heap.length ∧
          ∀ b, b < st2.heap.length →
            heapGet (get_program_with_type_and_instructors env slug st).2 b = heapGet st2 b) ∧
        (∀ pt, (get_program_type env (heapGet st2 fa).type st2).1 = Except.ok pt →
          ∃ ca st',
            get_program_with_type_and_instructors env slug st = (Except.ok (some ca), st') ∧
            fa < ca ∧
            heapGet st' ca =
              { heapGet st2 fa with
                  type := TypeField.obj pt
                  instructors := some
                    ((get_program_instructors env (heapGet st2 fa) ⟨[], st.cache, []⟩).1) })) := by
  have hcache1 : st1.cache = st.cache := by
    have h := (get_programs_state env none none st).1
    rw [h1] at h
    exact h
  unfold get_program_with_type_and_instructors
  rw [h1]
  dsimp only
  constructor
  · intro hfind
    rw [hfind]
  · intro a hfind fa st2 h4
    rw [hfind]
    dsimp only
    rw [h4]
    dsimp only
    obtain ⟨hen2, hus2, hfa, hst2⟩ := get_programs_some_cases env _ none st1 st2 fa h4
    have hfa2 : fa < st2.heap.length := by
      rw [hfa, hst2]
      simp
    have hcache2 : st2.cache = st.cache := by
      rw [hst2]
      exact hcache1
    rw [deepcopy_eq]
    dsimp only
    have harg : heapGet { st2 with heap := st2.heap ++ [heapGet st2 fa] } fa = heapGet st2 fa :=
      heapGet_append_left st2 _ fa hfa2
    rw [harg]
    cases hpt : get_program_type env (heapGet st2 fa).type
        { st2 with heap := st2.heap ++ [heapGet st2 fa] } with
    | mk tr st4 =>
      have hfst : (get_program_type env (heapGet st2 fa).type st2).1 = tr := by
        rw [get_program_type_fst env (heapGet st2 fa).type st2
          { st2 with heap := st2.heap ++ [heapGet st2 fa] }, hpt]
      obtain ⟨h4h, h4c⟩ := get_program_type_state env (heapGet st2 fa).type
        { st2 with heap := st2.heap ++ [heapGet st2 fa] }
      rw [hpt] at h4h h4c
      dsimp only at h4h h4c
      cases tr with
      | error e =>
        dsimp only
        refine ⟨⟨?_, ?_⟩, ?_⟩
        · rw [h4h]
          simp
        · intro b hb
          rw [heapGet_eq_of_heap st4 { st2 with heap := st2.heap ++ [heapGet st2 fa] } b h4h]
          exact heapGet_append_left st2 _ b hb
        · intro pt hok
          rw [hfst] at hok
          exact absurd hok (by simp)
      | ok pt =>
        dsimp only
        have hlen4 : st4.heap.length = st2.heap.length + 1 := by
          rw [h4h]
          simp
        have hca4 : st2.heap.length < st4.heap.length := by omega
        have hnefa : st2.heap.length ≠ fa := ne_of_gt hfa2
        set st5 := heapSet st4 st2.heap.length
          { heapGet st4 st2.heap.length with type := TypeField.obj pt } with hst5
        have hlen5 : st5.heap.length = st2.heap.length + 1 := by
          rw [hst5]
          simp only [heapSet, List.length_set]
          exact hlen4
        have hread5 : ∀ b, b < st2.heap.length → heapGet st5 b = heapGet st2 b := by
          intro b hb
          rw [hst5, heapGet_set_ne _ _ _ _ (Nat.ne_of_gt hb)]
          rw [heapGet_eq_of_heap st4 { st2 with heap := st2.heap ++ [heapGet st2 fa] } b h4h]
          exact heapGet_append_left st2 _ b hb
        have hfa5 : heapGet st5 fa = heapGet st2 fa := by
          rw [hst5, heapGet_set_ne _ _ _ _ hnefa]
          rw [heapGet_eq_of_heap st4 { st2 with heap := st2.heap ++ [heapGet st2 fa] } fa h4h]
          exact harg
        have hca5 : heapGet st5 st2.heap.length = { heapGet st2 fa with type := TypeField.obj pt } := by
          rw [hst5, heapGet_set_self st4 st2.heap.length _ hca4]
          have hv : heapGet st4 st2.heap.length = heapGet st2 fa := by
            rw [heapGet_eq_of_heap st4 { st2 with heap := st2.heap ++ [heapGet st2 fa] }
              st2.heap.length h4h]
            exact heapGet_append_self st2 (heapGet st2 fa)
          rw [hv]
        have hc5 : st5.cache = st.cache := by
          rw [hst5]
          simp only [heapSet]
          rw [h4c]
          exact hcache2
        cases hgi : get_program_instructors env (heapGet st5 fa) st5 with
        | mk instrs st6 =>
          obtain ⟨h6h, h6l⟩ := get_program_instructors_state env (heapGet st5 fa) st5
          rw [hgi] at h6h h6l
          dsimp only at h6h h6l
          have hlen6 : st6.heap.length = st2.heap.length + 1 := by
            rw [h6h]
            exact hlen5
          have hca6lt : st2.heap.length < st6.heap.length := by omega
          refine ⟨⟨?_, ?_⟩, ?_⟩
          · simp only [heapSet, List.length_set]
            omega
          · intro b hb
            rw [heapGet_set_ne _ _ _ _ (Nat.ne_of_gt hb)]
            rw [heapGet_eq_of_heap st6 st5 b h6h]
            exact hread5 b hb
          · intro ptq hok
            rw [hfst] at hok
            have hpq : pt = ptq := by simpa using hok
            subst hpq
            refine ⟨st2.heap.length,
              heapSet st6 st2.heap.length
                { heapGet st6 st2.heap.length with instructors := some instrs },
              rfl, hfa2, ?_⟩
            rw [heapGet_set_self st6 st2.heap.length _ hca6lt]
            have hc6 : heapGet st6 st2.heap.length =
                { heapGet st2 fa with type := TypeField.obj pt } := by
              rw [heapGet_eq_of_heap st6 st5 st2.heap.length h6h]
              exact hca5
            have hinstrs : instrs =
                (get_program_instructors env (heapGet st2 fa) ⟨[], st.cache, []⟩).1 := by
              have hfc := get_program_instructors_fst_cache env (heapGet st2 fa) st5
                ⟨[], st.cache, []⟩ (by simpa using hc5)
              rw [← hfc, ← hfa5, hgi]
            rw [hc6, hinstrs]

/-- C2: the enrichment composers never mutate the program objects obtained
from `get_programs()` (nor the one from the uuid re-fetch): after either
call the originals read back unchanged — in particular a `'type'` holding
the type name string still holds it and a missing `'instructors'` key is
still missing; only freshly allocated deep copies are written to. -/
theorem claim_C2_enrichment_mutates_only_copies (env : Env) (it : Option (List String))
    (slug : String) (st st1 : St) (addrs : List Addr)
    (h1 : get_programs env none none st = (PyProgData.plist addrs, st1)) :
    (∀ a ∈ addrs, heapGet (get_programs_with_type env it st).2 a = heapGet st1 a) ∧
    (∀ a ∈ addrs,
      heapGet (get_program_with_type_and_instructors env slug st).2 a = heapGet st1 a) ∧
    (∀ a ∈ addrs, ∀ t, (heapGet st1 a).type = TypeField.name t →
      ((heapGet (get_programs_with_type env it st).2 a).type = TypeField.name t ∧
        (heapGet (get_program_with_type_and_instructors env slug st).2 a).type =
          TypeField.name t)) ∧
    (∀ a ∈ addrs, (heapGet st1 a).instructors = none →
      ((heapGet (get_programs_with_type env it st).2 a).instructors = none ∧
        (heapGet (get_program_with_type_and_instructors env slug st).2 a).instructors =
          none)) ∧
    (∀ a fa st2, addrs.find? (fun x => (heapGet st1 x).marketing_slug == slug) = some a →
      get_programs env (some (heapGet st1 a).uuid) none st1 = (PyProgData.pdict fa, st2) →
      heapGet (get_program_with_type_and_instructors env slug st).2 fa = heapGet st2 fa) := by
  have hlt := get_programs_none_addr_lt env none st st1 addrs h1
  have hA : ∀ a ∈ addrs, heapGet (get_programs_with_type env it st).2 a = heapGet st1 a := by
    intro a ha
    unfold get_programs_with_type
    rw [h1]
    dsimp only
    cases addrs with
    | nil => exact absurd ha (by simp)
    | cons a0 rest =>
      dsimp only
      cases hty : get_program_types env st1 with
      | mk types st2 =>
        dsimp only
        obtain ⟨hh, hc⟩ := get_program_types_state env st1
        rw [hty] at hh hc
        dsimp only at hh hc
        obtain ⟨l1, l2, l3, l4⟩ := gpwt_loop_state (program_types_by_name types) it
          (a0 :: rest) st2
        rw [l4 a (by rw [hh]; exact hlt a ha)]
        exact heapGet_eq_of_heap st2 st1 a hh
  have hB : ∀ a ∈ addrs,
      heapGet (get_program_with_type_and_instructors env slug st).2 a = heapGet st1 a := by
    intro a ha
    obtain ⟨hnone, hsome⟩ := gpwti_exec env slug st st1 addrs h1
    cases hfind : addrs.find? (fun x => (heapGet st1 x).marketing_slug == slug) with
    | none => rw [hnone hfind]
    | some a0 =>
      have ha0 : a0 ∈ addrs := List.mem_of_find?_eq_some hfind
      have hne : addrs ≠ [] := by
        intro h
        subst h
        simp at ha0
      rcases get_programs_none_cases env none st st1 addrs h1 with ⟨_, hae, _⟩ | ⟨hen, hus, _, _⟩
      · exact absurd hae hne
      · have h4 := get_programs_enabled_some env (heapGet st1 a0).uuid none st1 hen hus
        obtain ⟨⟨_, hpres⟩, _⟩ := hsome a0 hfind _ _ h4
        have hst2read := (get_programs_state env (some (heapGet st1 a0).uuid) none st1).2.2
          a (hlt a ha)
        rw [h4] at hst2read
        dsimp only at hst2read
        rw [hpres a (by
          show a < (st1.heap ++
            [env.fetchOne (programs_call env (some (heapGet st1 a0).uuid) none)]).length
          simp only [List.length_append, List.length_singleton]
          exact Nat.lt_succ_of_lt (hlt a ha))]
        exact hst2read
  refine ⟨hA, hB, ?_, ?_, ?_⟩
  · intro a ha t ht
    rw [hA a ha, hB a ha]
    exact ⟨ht, ht⟩
  · intro a ha hin
    rw [hA a ha, hB a ha]
    exact ⟨hin, hin⟩
  · intro a fa st2 hfind h4
    obtain ⟨hnone, hsome⟩ := gpwti_exec env slug st st1 addrs h1
    obtain ⟨⟨_, hpres⟩, _⟩ := hsome a hfind fa st2 h4
    obtain ⟨_, _, hfa, hst2⟩ := get_programs_some_cases env _ none st1 st2 fa h4
    refine hpres fa ?_
    rw [hfa, hst2]
    simp

theorem claim_C2_enrichment_mutates_only_copies_witness :
    get_programs env_on none none st0 = (PyProgData.plist [0, 1], fix_st1) ∧
    ((∀ a ∈ [0, 1], heapGet (get_programs_with_type env_on none st0).2 a = heapGet fix_st1 a) ∧
      (∀ a ∈ [0, 1],
        heapGet (get_program_with_type_and_instructors env_on "slug1" st0).2 a =
          heapGet fix_st1 a) ∧
      (∀ a ∈ [0, 1], ∀ t, (heapGet fix_st1 a).type = TypeField.name t →
        ((heapGet (get_programs_with_type env_on none st0).2 a).type = TypeField.name t ∧
          (heapGet (get_program_with_type_and_instructors env_on "slug1" st0).2 a).type =
            TypeField.name t)) ∧
      (∀ a ∈ [0, 1], (heapGet fix_st1 a).instructors = none →
        ((heapGet (get_programs_with_type env_on none st0).2 a).instructors = none ∧
          (heapGet (get_program_with_type_and_instructors env_on "slug1" st0).2 a).instructors =
            none)) ∧
      (∀ a fa st2,
        List.find? (fun x => (heapGet fix_st1 x).marketing_slug == "slug1") [0, 1] = some a →
        get_programs env_on (some (heapGet fix_st1 a).uuid) none fix_st1 =
          (PyProgData.pdict fa, st2) →
        heapGet (get_program_with_type_and_instructors env_on "slug1" st0).2 fa =
          heapGet st2 fa)) :=
  ⟨by decide,
    claim_C2_enrichment_mutates_only_copies env_on none "slug1" st0 fix_st1 [0, 1] (by decide)⟩

/-- C1: `get_program_with_type_and_instructors(s)` returns the null result
when no fetched program carries marketing slug `s`; otherwise it takes the
first matching program, re-fetches that single program by its uuid through
`get_programs(uuid=...)`, and returns a fresh deep copy of the re-fetched
dict whose `'type'` field is replaced by the resolved program-type object
and whose `'instructors'` field is set to the aggregated instructor
list. -/
theorem claim_C1_program_by_slug (env : Env) (slug : String) (st st1 : St) (addrs : List Addr)
    (h1 : get_programs env none none st = (PyProgData.plist addrs, st1)) :
    ((∀ a ∈ addrs, (heapGet st1 a).marketing_slug ≠ slug) →
      get_program_with_type_and_instructors env slug st = (Except.ok none, st1)) ∧
    (∀ a, addrs.find? (fun x => (heapGet st1 x).marketing_slug == slug) = some a →
      ∃ fa st2,
        get_programs env (some (heapGet st1 a).uuid) none st1 = (PyProgData.pdict fa, st2) ∧
        ∀ pt, (get_program_type env (heapGet st2 fa).type st2).1 = Except.ok pt →
          ∃ ca st',
            get_program_with_type_and_instructors env slug st = (Except.ok (some ca), st') ∧
            fa < ca ∧
            heapGet st' ca =
              { heapGet st2 fa with
                  type := TypeField.obj pt
                  instructors := some
                    ((get_program_instructors env (heapGet st2 fa) ⟨[], st.cache, []⟩).1) }) := by
  obtain ⟨hnone, hsome⟩ := gpwti_exec env slug st st1 addrs h1
  constructor
  · intro hno
    apply hnone
    rw [List.find?_eq_none]
    intro x hx
    simp [hno x hx]
  · intro a hfind
    have ha : a ∈ addrs := List.mem_of_find?_eq_some hfind
    have hne : addrs ≠ [] := by
      intro h
      subst h
      simp at ha
    rcases get_programs_none_cases env none st st1 addrs h1 with ⟨_, hae, _⟩ | ⟨hen, hus, _, _⟩
    · exact absurd hae hne
    · have h4 := get_programs_enabled_some env (heapGet st1 a).uuid none st1 hen hus
      refine ⟨_, _, h4, ?_⟩
      intro pt hpt
      obtain ⟨_, hok⟩ := hsome a hfind _ _ h4
      exact hok pt hpt

theorem claim_C1_program_by_slug_witness :
    get_programs env_on none none st0 = (PyProgData.plist [0, 1], fix_st1) ∧
    (((∀ a ∈ [0, 1], (heapGet fix_st1 a).marketing_slug ≠ "slug1") →
        get_program_with_type_and_instructors env_on "slug1" st0 = (Except.ok none, fix_st1)) ∧
      (∀ a, List.find? (fun x => (heapGet fix_st1 x).marketing_slug == "slug1") [0, 1] =
          some a →
        ∃ fa st2,
          get_programs env_on (some (heapGet fix_st1 a).uuid) none fix_st1 =
            (PyProgData.pdict fa, st2) ∧
          ∀ pt, (get_program_type env_on (heapGet st2 fa).type st2).1 = Except.ok pt →
            ∃ ca st',
              get_program_with_type_and_instructors env_on "slug1" st0 =
                (Except.ok (some ca), st') ∧
              fa < ca ∧
              heapGet st' ca =
                { heapGet st2 fa with
                    type := TypeField.obj pt
                    instructors := some
                      ((get_program_instructors env_on (heapGet st2 fa)
                        ⟨[], st0.cache, []⟩).1) })) :=
  ⟨by decide, claim_C1_program_by_slug env_on "slug1" st0 fix_st1 [0, 1] (by decide)⟩

theorem pyDictInsert_values_pred {K V : Type} [DecidableEq K] (P : V → Prop)
    (d : List (K × V)) (k : K) (v : V) (hv : P v) :
    (∀ p ∈ d, P p.2) → ∀ p ∈ pyDictInsert d k v, P p.2 := by
  induction d with
  | nil =>
    intro _ p hp
    simp [pyDictInsert] at hp
    subst hp
    exact hv
  | cons q rest ih =>
    intro hd p hp
    by_cases hq : q.1 = k
    · rw [pyDictInsert_cons_eq q rest k v hq] at hp
      rcases List.mem_cons.1 hp with rfl | hp
      · exact hv
      · exact hd p (List.mem_cons_of_mem q hp)
    · rw [pyDictInsert_cons_ne q rest k v hq] at hp
      rcases List.mem_cons.1 hp with rfl | hp
      · exact hd p (List.mem_cons_self p rest)
      · exact ih (fun r hr => hd r (List.mem_cons_of_mem q hr)) p hp

theorem types_by_name_values_mem (types : List ProgramType) :
    ∀ p ∈ program_types_by_name types, p.2 ∈ types := by
  unfold program_types_by_name
  suffices h : ∀ (s : List ProgramType) (d : List (String × ProgramType)),
      (∀ p ∈ d, p.2 ∈ types) → (∀ v ∈ s, v ∈ types) →
      ∀ p ∈ s.foldl (fun d pt => pyDictInsert d pt.name pt) d, p.2 ∈ types by
    exact h types [] (by simp) (fun v hv => hv)
  intro s
  induction s with
  | nil => exact fun d hd _ => hd
  | cons pt rest ih =>
    intro d hd hs
    simp only [List.foldl_cons]
    exact ih _ (pyDictInsert_values_pred _ d pt.name pt (hs pt (List.mem_cons_self pt rest)) hd)
      (fun v hv => hs v (List.mem_cons_of_mem pt hv))

/-- Successful run of the enrichment loop: when the type subscript succeeds
for every listed program that passes the filter (only those reach the
subscript), the loop returns, in order, one fresh copy per selected
program, carrying the resolved type object. -/
theorem gpwt_loop_ok (ptd : List (String × ProgramType)) (it : Option (List String))
    (l : List Addr) (st : St)
    (hv : ∀ a ∈ l, a < st.heap.length)
    (hok : ∀ a ∈ l, program_selected (heapGet st a).type it = true →
      ∃ pt, program_types_getitem ptd (heapGet st a).type = Except.ok pt) :
    ∃ res st', gpwt_loop ptd it l st = (Except.ok res, st') ∧
      List.Forall₂
        (fun (p : Program) (r : Addr) =>
          st.heap.length ≤ r ∧
          ∃ pt, program_types_getitem ptd p.type = Except.ok pt ∧
            heapGet st' r = { p with type := TypeField.obj pt })
        ((l.map (heapGet st)).filter (fun p => program_selected p.type it)) res := by
  induction l generalizing st with
  | nil => exact ⟨[], st, rfl, by simp⟩
  | cons a rest ih =>
    simp only [gpwt_loop]
    by_cases hsel : program_selected (heapGet st a).type it = true
    · rw [if_pos hsel, deepcopy_eq]
      dsimp only
      obtain ⟨pt, hpt⟩ := hok a (List.mem_cons_self a rest) hsel
      rw [hpt]
      dsimp only
      set st2 := heapSet { st with heap := st.heap ++ [heapGet st a] } st.heap.length
        { heapGet { st with heap := st.heap ++ [heapGet st a] } st.heap.length with
            type := TypeField.obj pt } with hst2
      have hlen2 : st2.heap.length = st.heap.length + 1 := by
        rw [hst2]
        simp [heapSet]
      have hread2 : ∀ b, b < st.heap.length → heapGet st2 b = heapGet st b := by
        intro b hb
        rw [hst2, heapGet_set_ne _ _ _ _ (Nat.ne_of_gt hb)]
        exact heapGet_append_left st _ b hb
      have hca2 : heapGet st2 st.heap.length = { heapGet st a with type := TypeField.obj pt } := by
        rw [hst2, heapGet_set_self _ _ _ (by simp)]
        rw [heapGet_append_self st (heapGet st a)]
      have hv2 : ∀ b ∈ rest, b < st2.heap.length := by
        intro b hb
        rw [hlen2]
        exact Nat.lt_succ_of_lt (hv b (List.mem_cons_of_mem a hb))
      have hok2 : ∀ b ∈ rest, program_selected (heapGet st2 b).type it = true →
          ∃ q, program_types_getitem ptd (heapGet st2 b).type = Except.ok q := by
        intro b hb hbsel
        rw [hread2 b (hv b (List.mem_cons_of_mem a hb))] at hbsel ⊢
        exact hok b (List.mem_cons_of_mem a hb) hbsel
      obtain ⟨res, st', heq, hf⟩ := ih st2 hv2 hok2
      rw [heq]
      refine ⟨st.heap.length :: res, st', rfl, ?_⟩
      rw [List.map_cons, List.filter_cons, if_pos hsel]
      obtain ⟨g1, g2, g3, g4⟩ := gpwt_loop_state ptd it rest st2
      rw [heq] at g4
      dsimp only at g4
      refine List.Forall₂.cons ⟨Nat.le_refl _, pt, hpt, ?_⟩ ?_
      · rw [g4 st.heap.length (by rw [hlen2]; exact Nat.lt_succ_self _)]
        exact hca2
      · have hmap : rest.map (heapGet st2) = rest.map (heapGet st) :=
          List.map_congr_left (fun b hb => hread2 b (hv b (List.mem_cons_of_mem a hb)))
        rw [hmap] at hf
        refine hf.imp ?_
        intro p r hpr
        refine ⟨Nat.le_trans ?_ hpr.1, hpr.2⟩
        rw [hlen2]
        exact Nat.le_succ _
    · rw [if_neg hsel]
      rw [List.map_cons, List.filter_cons, if_neg hsel]
      exact ih st (fun b hb => hv b (List.mem_cons_of_mem a hb))
        (fun b hb hbsel => hok b (List.mem_cons_of_mem a hb) hbsel)

/-- A successful type subscript means the field held a name string found in
the dict. -/
theorem program_types_getitem_ok (d : List (String × ProgramType)) (tf : TypeField)
    (pt : ProgramType) (h : program_types_getitem d tf = Except.ok pt) :
    ∃ t, tf = TypeField.name t ∧ pyDictGet? d t = some pt := by
  cases tf with
  | name t =>
    refine ⟨t, rfl, ?_⟩
    cases hg : pyDictGet? d t with
    | some v =>
      simp only [program_types_getitem, hg] at h
      simpa using h
    | none => simp [program_types_getitem, hg] at h
  | obj o => simp [program_types_getitem] at h

/-- C4: `get_programs_with_type(include_types)` returns, in the order of
`get_programs()`, one freshly allocated deep copy per program passing the
type-name filter (every program when the filter is absent or empty), with
the copy's `'type'` replaced by the fetched program-type object of the same
name; other programs are excluded, and the program types are fetched —
leaving the state of the types call — only when the program list is
non-empty.  The precondition asks only that every *selected* program's
type name be present in the fetched types: filtered-out programs never
reach the subscript. -/
theorem claim_C4_programs_with_type (env : Env) (it : Option (List String)) (st st1 st2 : St)
    (addrs : List Addr) (types : List ProgramType)
    (h1 : get_programs env none none st = (PyProgData.plist addrs, st1))
    (h2 : get_program_types env st1 = (types, st2))
    (hwf : ∀ a ∈ addrs, program_selected (heapGet st1 a).type it = true →
      ∃ t, (heapGet st1 a).type = TypeField.name t ∧
        t ∈ types.map ProgramType.name) :
    (addrs = [] → get_programs_with_type env it st = (Except.ok [], st1)) ∧
    (addrs ≠ [] → ∃ res st',
      get_programs_with_type env it st = (Except.ok res, st') ∧
      st'.calls = st2.calls ∧
      List.Forall₂
        (fun (p : Program) (r : Addr) =>
          st1.heap.length ≤ r ∧
          ∃ t pt, p.type = TypeField.name t ∧ pt ∈ types ∧ pt.name = t ∧
            heapGet st' r = { p with type := TypeField.obj pt })
        ((addrs.map (heapGet st1)).filter (fun p => program_selected p.type it)) res) := by
  constructor
  · rintro rfl
    unfold get_programs_with_type
    rw [h1]
  · intro hne
    unfold get_programs_with_type
    rw [h1]
    dsimp only
    cases addrs with
    | nil => exact absurd rfl hne
    | cons a0 rest =>
      dsimp only
      rw [h2]
      dsimp only
      obtain ⟨hh, hc⟩ := get_program_types_state env st1
      rw [h2] at hh hc
      dsimp only at hh hc
      have hlt := get_programs_none_addr_lt env none st st1 (a0 :: rest) h1
      have hv : ∀ a ∈ a0 :: rest, a < st2.heap.length := by
        intro a ha
        rw [hh]
        exact hlt a ha
      have hok : ∀ a ∈ a0 :: rest, program_selected (heapGet st2 a).type it = true →
          ∃ pt,
            program_types_getitem (program_types_by_name types) (heapGet st2 a).type =
              Except.ok pt := by
        intro a ha hasel
        rw [heapGet_eq_of_heap st2 st1 a hh] at hasel ⊢
        obtain ⟨t, htn, hmem⟩ := hwf a ha hasel
        rw [htn]
        obtain ⟨pt, hget, _⟩ := (types_by_name_getitem types t).2 hmem
        exact ⟨pt, hget⟩
      obtain ⟨res, st', heq, hf⟩ :=
        gpwt_loop_ok (program_types_by_name types) it (a0 :: rest) st2 hv hok
      obtain ⟨g1, g2, g3, g4⟩ := gpwt_loop_state (program_types_by_name types) it
        (a0 :: rest) st2
      rw [heq] at g3
      dsimp only at g3
      refine ⟨res, st', heq, g3, ?_⟩
      have hmap : (a0 :: rest).map (heapGet st2) = (a0 :: rest).map (heapGet st1) :=
        List.map_congr_left (fun b _ => heapGet_eq_of_heap st2 st1 b hh)
      rw [hmap] at hf
      refine hf.imp ?_
      intro p r hpr
      obtain ⟨hr, pt, hget, hcopy⟩ := hpr
      obtain ⟨t, htf, hlook⟩ := program_types_getitem_ok _ _ _ hget
      refine ⟨?_, t, pt, htf, ?_, ?_, hcopy⟩
      · rw [← hh]
        exact hr
      · exact types_by_name_values_mem types (t, pt) (pyDictGet?_mem _ t pt hlook)
      · exact types_by_name_values_inv types (t, pt) (pyDictGet?_mem _ t pt hlook)

theorem claim_C4_programs_with_type_witness :
    get_programs env_untyped none none st0 = (PyProgData.plist [0, 1], fix_st1u) ∧
    get_program_types env_untyped fix_st1u = ([⟨"T1", "d1"⟩], fix_st_types_u) ∧
    (∀ a ∈ [0, 1], program_selected (heapGet fix_st1u a).type (some ["T1"]) = true →
      ∃ t, (heapGet fix_st1u a).type = TypeField.name t ∧
        t ∈ ([⟨"T1", "d1"⟩] : List ProgramType).map ProgramType.name) ∧
    (([0, 1] = ([] : List Addr) →
        get_programs_with_type env_untyped (some ["T1"]) st0 = (Except.ok [], fix_st1u)) ∧
      (([0, 1] : List Addr) ≠ [] → ∃ res st',
        get_programs_with_type env_untyped (some ["T1"]) st0 = (Except.ok res, st') ∧
        st'.calls = fix_st_types_u.calls ∧
        List.Forall₂
          (fun (p : Program) (r : Addr) =>
            fix_st1u.heap.length ≤ r ∧
            ∃ t pt, p.type = TypeField.name t ∧
              pt ∈ ([⟨"T1", "d1"⟩] : List ProgramType) ∧ pt.name = t ∧
              heapGet st' r = { p with type := TypeField.obj pt })
          (([0, 1].map (heapGet fix_st1u)).filter
            (fun p => program_selected p.type (some ["T1"]))) res)) :=
  ⟨by decide, by decide,
    by
      intro a ha hsel
      simp only [List.mem_cons, List.not_mem_nil, or_false] at ha
      rcases ha with rfl | rfl
      · exact ⟨"T1", by decide, by decide⟩
      · exact absurd hsel (by decide),
    claim_C4_programs_with_type env_untyped (some ["T1"]) st0 fix_st1u fix_st_types_u [0, 1]
      [⟨"T1", "d1"⟩] (by decide) (by decide)
      (by
        intro a ha hsel
        simp only [List.mem_cons, List.not_mem_nil, or_false] at ha
        rcases ha with rfl | rfl
        · exact ⟨"T1", by decide, by decide⟩
        · exact absurd hsel (by decide))⟩

/-- When some selected program's type name is absent from the dict, the
enrichment loop aborts with that `KeyError` (assuming every listed program
still carries a name-string type). -/
theorem gpwt_loop_err (ptd : List (String × ProgramType)) (it : Option (List String))
    (l : List Addr) (st : St)
    (hv : ∀ a ∈ l, a < st.heap.length)
    (hnames : ∀ a ∈ l, ∃ t, (heapGet st a).type = TypeField.name t)
    (hbad : ∃ a ∈ l, program_selected (heapGet st a).type it = true ∧
      ∃ t, (heapGet st a).type = TypeField.name t ∧ pyDictGet? ptd t = none) :
    ∃ t st', gpwt_loop ptd it l st = (Except.error (PyErr.keyError t), st') ∧
      pyDictGet? ptd t = none := by
  induction l generalizing st with
  | nil =>
    obtain ⟨a, ha, _⟩ := hbad
    exact absurd ha (List.not_mem_nil a)
  | cons a rest ih =>
    simp only [gpwt_loop]
    by_cases hsel : program_selected (heapGet st a).type it = true
    · rw [if_pos hsel, deepcopy_eq]
      dsimp only
      cases hget : program_types_getitem ptd (heapGet st a).type with
      | error e =>
        obtain ⟨t, ht⟩ := hnames a (List.mem_cons_self a rest)
        rw [ht] at hget
        cases hlook : pyDictGet? ptd t with
        | some v => simp [program_types_getitem, hlook] at hget
        | none =>
          have he : e = PyErr.keyError t := by
            simp only [program_types_getitem, hlook] at hget
            simpa using hget.symm
          subst he
          exact ⟨t, _, rfl, hlook⟩
      | ok pt =>
        dsimp only
        set st2 := heapSet { st with heap := st.heap ++ [heapGet st a] } st.heap.length
          { heapGet { st with heap := st.heap ++ [heapGet st a] } st.heap.length with
              type := TypeField.obj pt } with hst2
        have hlen2 : st2.heap.length = st.heap.length + 1 := by
          rw [hst2]
          simp [heapSet]
        have hread2 : ∀ b, b < st.heap.length → heapGet st2 b = heapGet st b := by
          intro b hb
          rw [hst2, heapGet_set_ne _ _ _ _ (Nat.ne_of_gt hb)]
          exact heapGet_append_left st _ b hb
        obtain ⟨b, hb, hbsel, t, hbt, hbnone⟩ := hbad
        have hbrest : b ∈ rest := by
          rcases List.mem_cons.1 hb with rfl | h
          · rw [hbt] at hget
            simp [program_types_getitem, hbnone] at hget
          · exact h
        have hv2 : ∀ c ∈ rest, c < st2.heap.length := by
          intro c hc
          rw [hlen2]
          exact Nat.lt_succ_of_lt (hv c (List.mem_cons_of_mem a hc))
        have hnames2 : ∀ c ∈ rest, ∃ u, (heapGet st2 c).type = TypeField.name u := by
          intro c hc
          rw [hread2 c (hv c (List.mem_cons_of_mem a hc))]
          exact hnames c (List.mem_cons_of_mem a hc)
        have hbad2 : ∃ c ∈ rest, program_selected (heapGet st2 c).type it = true ∧
            ∃ u, (heapGet st2 c).type = TypeField.name u ∧ pyDictGet? ptd u = none := by
          refine ⟨b, hbrest, ?_, t, ?_, hbnone⟩
          · rw [hread2 b (hv b hb)]
            exact hbsel
          · rw [hread2 b (hv b hb)]
            exact hbt
        obtain ⟨t', st', heq, hnone'⟩ := ih st2 hv2 hnames2 hbad2
        rw [heq]
        exact ⟨t', st', rfl, hnone'⟩
    · rw [if_neg hsel]
      refine ih st (fun c hc => hv c (List.mem_cons_of_mem a hc))
        (fun c hc => hnames c (List.mem_cons_of_mem a hc)) ?_
      obtain ⟨b, hb, hbsel, hrest⟩ := hbad
      rcases List.mem_cons.1 hb with rfl | h
      · exact absurd hbsel hsel
      · exact ⟨b, h, hbsel, hrest⟩

/-- C9: when the fetched program list contains a program passing the filter
whose type name is missing from the fetched program types, the whole
`get_programs_with_type` call fails with the unhandled `KeyError` — it
neither skips the program nor returns it unenriched (under the unstated
precondition that program types are still name strings). -/
theorem claim_C9_missing_type_name_raises (env : Env) (it : Option (List String))
    (st st1 st2 : St) (addrs : List Addr) (types : List ProgramType)
    (h1 : get_programs env none none st = (PyProgData.plist addrs, st1))
    (h2 : get_program_types env st1 = (types, st2))
    (hnames : ∀ a ∈ addrs, ∃ t, (heapGet st1 a).type = TypeField.name t)
    (hbad : ∃ a ∈ addrs, program_selected (heapGet st1 a).type it = true ∧
      ∃ t, (heapGet st1 a).type = TypeField.name t ∧ t ∉ types.map ProgramType.name) :
    ∃ t st', get_programs_with_type env it st = (Except.error (PyErr.keyError t), st') ∧
      t ∉ types.map ProgramType.name := by
  unfold get_programs_with_type
  rw [h1]
  dsimp only
  cases addrs with
  | nil =>
    obtain ⟨a, ha, _⟩ := hbad
    exact absurd ha (List.not_mem_nil a)
  | cons a0 rest =>
    dsimp only
    rw [h2]
    dsimp only
    obtain ⟨hh, hc⟩ := get_program_types_state env st1
    rw [h2] at hh hc
    dsimp only at hh hc
    have hlt := get_programs_none_addr_lt env none st st1 (a0 :: rest) h1
    have hv : ∀ a ∈ a0 :: rest, a < st2.heap.length := by
      intro a ha
      rw [hh]
      exact hlt a ha
    have hnone_of_not_mem : ∀ t, t ∉ types.map ProgramType.name →
        pyDictGet? (program_types_by_name types) t = none := by
      intro t hmem
      cases hg : pyDictGet? (program_types_by_name types) t with
      | none => rfl
      | some v =>
        exact absurd ((types_by_name_keys_mem types t).1
          ((pyDictGet?_keys_mem _ t).2 ⟨v, hg⟩)) hmem
    have hnames2 : ∀ a ∈ a0 :: rest, ∃ t, (heapGet st2 a).type = TypeField.name t := by
      intro a ha
      rw [heapGet_eq_of_heap st2 st1 a hh]
      exact hnames a ha
    have hbad2 : ∃ a ∈ a0 :: rest, program_selected (heapGet st2 a).type it = true ∧
        ∃ t, (heapGet st2 a).type = TypeField.name t ∧
          pyDictGet? (program_types_by_name types) t = none := by
      obtain ⟨a, ha, hasel, t, hat, hmem⟩ := hbad
      refine ⟨a, ha, ?_, t, ?_, hnone_of_not_mem t hmem⟩
      · rw [heapGet_eq_of_heap st2 st1 a hh]
        exact hasel
      · rw [heapGet_eq_of_heap st2 st1 a hh]
        exact hat
    obtain ⟨t, st', heq, hnone'⟩ :=
      gpwt_loop_err (program_types_by_name types) it (a0 :: rest) st2 hv hnames2 hbad2
    refine ⟨t, st', heq, ?_⟩
    intro hmem
    obtain ⟨v, hv'⟩ := (pyDictGet?_keys_mem _ t).1 ((types_by_name_keys_mem types t).2 hmem)
    rw [hv'] at hnone'
    exact absurd hnone' (by simp)

theorem claim_C9_missing_type_name_raises_witness :
    get_programs env_untyped none none st0 = (PyProgData.plist [0, 1], fix_st1u) ∧
    get_program_types env_untyped fix_st1u = ([⟨"T1", "d1"⟩], fix_st_types_u) ∧
    (∀ a ∈ [0, 1], ∃ t, (heapGet fix_st1u a).type = TypeField.name t) ∧
    (∃ a ∈ [0, 1], program_selected (heapGet fix_st1u a).type none = true ∧
      ∃ t, (heapGet fix_st1u a).type = TypeField.name t ∧
        t ∉ ([⟨"T1", "d1"⟩] : List ProgramType).map ProgramType.name) ∧
    (∃ t st', get_programs_with_type env_untyped none st0 =
        (Except.error (PyErr.keyError t), st') ∧
      t ∉ ([⟨"T1", "d1"⟩] : List ProgramType).map ProgramType.name) :=
  ⟨by decide, by decide,
    by
      intro a ha
      simp only [List.mem_cons, List.not_mem_nil, or_false] at ha
      rcases ha with rfl | rfl
      · exact ⟨"T1", by decide⟩
      · exact ⟨"T2", by decide⟩,
    ⟨1, by decide, by decide, "T2", by decide, by decide⟩,
    claim_C9_missing_type_name_raises env_untyped none st0 fix_st1u fix_st_types_u [0, 1]
      [⟨"T1", "d1"⟩] (by decide) (by decide)
      (by
        intro a ha
        simp only [List.mem_cons, List.not_mem_nil, or_false] at ha
        rcases ha with rfl | rfl
        · exact ⟨"T1", by decide⟩
        · exact ⟨"T2", by decide⟩)
      ⟨1, by decide, by decide, "T2", by decide, by decide⟩⟩

end Catalog
